import Mathlib

/-!
Verification of the grid search engine of `src/main.cpp` (grid pathfinding
visualizer): the Dijkstra and A* search loops, the shared cost model, path
reconstruction, the trace-event sequence, and the wall-toggle handler.

Modelling conventions.
The C++ code accumulates move costs `1.0f` and `sqrt(2.0f)` in single-precision
floats and compares with a machine-epsilon tolerance (lines 210-212, 321-323).
Every cost that arises is an exact value `a + b*sqrt 2` with natural `a`, `b`
(the number of cardinal and diagonal moves), so we embed costs as such pairs
with an exact decidable order; the epsilon tolerance, whose purpose is to
absorb float rounding, becomes the exact comparison (tolerance zero).
`std::numeric_limits<float>::max()`, the infinity sentinel of `dist`/`g_cost`,
is embedded as `none : Option Cost`.  The `std::priority_queue` pops some
minimal-key entry (ties broken arbitrarily by the heap); we embed the
deterministic refinement that pops the first minimal entry of the pending list.
The unbounded `while (!pq.empty())` loop is run with explicit fuel
`searchFuel N`; we prove the loop always reaches a terminal state within that
fuel, so the fuelled function agrees with the C++ loop.
-/

namespace PathViz

/-! ## Exact cost arithmetic: values of the form `a + b * sqrt 2` -/

/-- Real semantics of an integer pair `(a, b)` read as `a + b * sqrt 2`. -/
noncomputable def toR (v : ℤ × ℤ) : ℝ := (v.1 : ℝ) + (v.2 : ℝ) * Real.sqrt 2

/-- Decidable comparison of `a + b * sqrt 2` values via integer arithmetic:
`v ≤ w` iff `v.1 - w.1 ≤ (w.2 - v.2) * sqrt 2`, decided by sign analysis
and squaring. -/
def zcLe (v w : ℤ × ℤ) : Bool :=
  if 0 ≤ w.2 - v.2 then
    (if v.1 - w.1 ≤ 0 then true else decide ((v.1 - w.1) ^ 2 ≤ 2 * (w.2 - v.2) ^ 2))
  else
    (if 0 < v.1 - w.1 then false else decide (2 * (w.2 - v.2) ^ 2 ≤ (v.1 - w.1) ^ 2))

theorem sqrt_two_pos : (0 : ℝ) < Real.sqrt 2 :=
  Real.sqrt_pos.mpr (by norm_num)

theorem sq_sqrt_two : Real.sqrt 2 ^ 2 = 2 := by
  rw [sq]
  exact Real.mul_self_sqrt (by norm_num)

/-- Comparison against a `sqrt 2` multiple by squaring, nonnegative case. -/
theorem le_sqrt2_iff_sq {p q : ℝ} (hq : 0 ≤ q) (hp : 0 < p) :
    p ≤ q * Real.sqrt 2 ↔ p ^ 2 ≤ 2 * q ^ 2 := by
  have hs : (0 : ℝ) < Real.sqrt 2 := sqrt_two_pos
  have hs2 : Real.sqrt 2 ^ 2 = 2 := sq_sqrt_two
  constructor
  · intro h
    have h2 := mul_self_le_mul_self hp.le h
    nlinarith [h2, hs2, sq_nonneg q, sq_nonneg p]
  · intro h
    by_contra hc
    push_neg at hc
    have h0 : (0 : ℝ) ≤ q * Real.sqrt 2 := by positivity
    have h2 := mul_self_lt_mul_self h0 hc
    nlinarith [h2, hs2, sq_nonneg q, sq_nonneg p]

/-- Comparison against a `sqrt 2` multiple by squaring, nonpositive case. -/
theorem le_sqrt2_iff_sq_neg {p q : ℝ} (hq : q < 0) (hp : p ≤ 0) :
    p ≤ q * Real.sqrt 2 ↔ 2 * q ^ 2 ≤ p ^ 2 := by
  have hs : (0 : ℝ) < Real.sqrt 2 := sqrt_two_pos
  have hs2 : Real.sqrt 2 ^ 2 = 2 := sq_sqrt_two
  have hqs : q * Real.sqrt 2 < 0 := mul_neg_of_neg_of_pos hq hs
  constructor
  · intro h
    have h0 : (0 : ℝ) ≤ -(q * Real.sqrt 2) := by linarith
    have h1 : -(q * Real.sqrt 2) ≤ -p := by linarith
    have h2 := mul_self_le_mul_self h0 h1
    nlinarith [h2, hs2, sq_nonneg q, sq_nonneg p]
  · intro h
    by_contra hc
    push_neg at hc
    have h0 : (0 : ℝ) ≤ -p := by linarith
    have h1 : -p < -(q * Real.sqrt 2) := by linarith
    have h2 := mul_self_lt_mul_self h0 h1
    nlinarith [h2, hs2, sq_nonneg q, sq_nonneg p]

theorem zcLe_iff (v w : ℤ × ℤ) : zcLe v w = true ↔ toR v ≤ toR w := by
  have hs : (0 : ℝ) < Real.sqrt 2 := sqrt_two_pos
  have hiff : toR v ≤ toR w ↔
      ((v.1 - w.1 : ℤ) : ℝ) ≤ ((w.2 - v.2 : ℤ) : ℝ) * Real.sqrt 2 := by
    unfold toR
    push_cast
    constructor <;> intro h <;> ring_nf at h ⊢ <;> linarith
  rw [hiff]
  unfold zcLe
  by_cases hq : 0 ≤ w.2 - v.2
  · have hQ : (0 : ℝ) ≤ ((w.2 - v.2 : ℤ) : ℝ) := by exact_mod_cast hq
    rw [if_pos hq]
    by_cases hp : v.1 - w.1 ≤ 0
    · have hP : ((v.1 - w.1 : ℤ) : ℝ) ≤ 0 := by exact_mod_cast hp
      rw [if_pos hp]
      simp only [true_iff]
      have : (0 : ℝ) ≤ ((w.2 - v.2 : ℤ) : ℝ) * Real.sqrt 2 := by positivity
      linarith
    · have hP : (0 : ℝ) < ((v.1 - w.1 : ℤ) : ℝ) := by
        exact_mod_cast (by omega : (0 : ℤ) < v.1 - w.1)
      rw [if_neg hp, decide_eq_true_eq, le_sqrt2_iff_sq hQ hP]
      constructor
      · intro h
        have h' : ((v.1 - w.1 : ℤ) : ℝ) ^ 2 ≤ 2 * ((w.2 - v.2 : ℤ) : ℝ) ^ 2 := by
          exact_mod_cast h
        exact h'
      · intro h
        exact_mod_cast h
  · have hQ : ((w.2 - v.2 : ℤ) : ℝ) < 0 := by
      exact_mod_cast (by omega : w.2 - v.2 < (0 : ℤ))
    rw [if_neg hq]
    by_cases hp : 0 < v.1 - w.1
    · have hP : (0 : ℝ) < ((v.1 - w.1 : ℤ) : ℝ) := by exact_mod_cast hp
      rw [if_pos hp]
      simp only [Bool.false_eq_true, false_iff, not_le]
      have : ((w.2 - v.2 : ℤ) : ℝ) * Real.sqrt 2 < 0 := mul_neg_of_neg_of_pos hQ hs
      linarith
    · have hP : ((v.1 - w.1 : ℤ) : ℝ) ≤ 0 := by
        exact_mod_cast (by omega : v.1 - w.1 ≤ (0 : ℤ))
      rw [if_neg hp, decide_eq_true_eq, le_sqrt2_iff_sq_neg hQ hP]
      constructor
      · intro h
        have h' : 2 * ((w.2 - v.2 : ℤ) : ℝ) ^ 2 ≤ ((v.1 - w.1 : ℤ) : ℝ) ^ 2 := by
          exact_mod_cast h
        exact h'
      · intro h
        exact_mod_cast h

/-- An exact accumulated movement cost: `a` cardinal moves of cost `1.0f` and
`b` diagonal moves of cost `sqrt(2.0f)` (source constants at lines 21-22). -/
structure Cost where
  a : ℕ
  b : ℕ
deriving DecidableEq

instance : Add Cost := ⟨fun x y => ⟨x.a + y.a, x.b + y.b⟩⟩

instance : Zero Cost := ⟨⟨0, 0⟩⟩

theorem Cost.add_def (x y : Cost) : x + y = ⟨x.a + y.a, x.b + y.b⟩ := rfl

instance : AddCommMonoid Cost where
  add_assoc x y z := by
    simp [Cost.add_def]
    omega
  zero_add x := by
    show Cost.mk _ _ + _ = _
    simp [Cost.add_def]
  add_zero x := by
    show _ + Cost.mk _ _ = _
    simp [Cost.add_def]
  add_comm x y := by
    simp [Cost.add_def]
    omega
  nsmul := nsmulRec

def Cost.toZ (c : Cost) : ℤ × ℤ := ((c.a : ℤ), (c.b : ℤ))

/-- The real value of an exact cost. -/
noncomputable def Cost.toReal (c : Cost) : ℝ := toR c.toZ

/-- Embeds the float comparison `x <= y` on exactly represented costs. -/
def Cost.leB (x y : Cost) : Bool := zcLe x.toZ y.toZ

/-- Embeds the float comparison `x < y` on exactly represented costs. -/
def Cost.ltB (x y : Cost) : Bool := !(Cost.leB y x)

theorem Cost.leB_iff (x y : Cost) : Cost.leB x y = true ↔ x.toReal ≤ y.toReal := by
  unfold Cost.leB Cost.toReal
  exact zcLe_iff _ _

theorem Cost.ltB_iff (x y : Cost) : Cost.ltB x y = true ↔ x.toReal < y.toReal := by
  unfold Cost.ltB
  rw [Bool.not_eq_true']
  rw [← Bool.not_eq_true (leB y x)]
  constructor
  · intro h
    rcases lt_or_le x.toReal y.toReal with h' | h'
    · exact h'
    · exact absurd ((Cost.leB_iff y x).mpr h') h
  · intro h hc
    exact absurd ((Cost.leB_iff y x).mp hc) (not_le.mpr h)

theorem Cost.toReal_add (x y : Cost) : (x + y).toReal = x.toReal + y.toReal := by
  show toR (Cost.toZ ⟨x.a + y.a, x.b + y.b⟩) = toR x.toZ + toR y.toZ
  unfold toR Cost.toZ
  push_cast
  ring

theorem Cost.toReal_nonneg (x : Cost) : 0 ≤ x.toReal := by
  unfold Cost.toReal toR Cost.toZ
  have := sqrt_two_pos
  positivity

theorem Cost.toReal_zero : (0 : Cost).toReal = 0 := by
  show toR (Cost.toZ ⟨0, 0⟩) = 0
  unfold toR Cost.toZ
  push_cast
  ring

/-- Normal form of the real value of a cost. -/
theorem Cost.toReal_eq (c : Cost) : c.toReal = (c.a : ℝ) + (c.b : ℝ) * Real.sqrt 2 := by
  show toR ((c.a : ℤ), (c.b : ℤ)) = _
  unfold toR
  push_cast
  ring

/-- Real values `a + b * sqrt 2` determine the pair: `sqrt 2` is irrational. -/
theorem Cost.toReal_inj {x y : Cost} (h : x.toReal = y.toReal) : x = y := by
  rw [Cost.toReal_eq, Cost.toReal_eq] at h
  by_cases hb : x.b = y.b
  · have ha : (x.a : ℝ) = y.a := by
      rw [hb] at h
      linarith
    have ha' : x.a = y.a := by exact_mod_cast ha
    cases x; cases y
    simp_all
  · exfalso
    have hbne : ((x.b : ℝ) - (y.b : ℝ)) ≠ 0 := by
      intro hc
      exact hb (by exact_mod_cast (by linarith : (x.b : ℝ) = y.b))
    have : Real.sqrt 2 = ((y.a : ℝ) - (x.a : ℝ)) / ((x.b : ℝ) - (y.b : ℝ)) := by
      field_simp
      linarith
    have hratq : ∃ q : ℚ, Real.sqrt 2 = (q : ℝ) := by
      refine ⟨((y.a : ℚ) - (x.a : ℚ)) / ((x.b : ℚ) - (y.b : ℚ)), ?_⟩
      rw [this]
      push_cast
      ring
    obtain ⟨q, hq⟩ := hratq
    exact irrational_sqrt_two ⟨q, hq.symm⟩

/-! ## The grid, movement directions and the cost of moves -/

/-- Grid coordinates `(x, y)`, as in the source's `sf::Vector2i`. -/
abbrev Coord := ℤ × ℤ

/-- The 8 relative movement offsets, in source order (lines 25-27). -/
def directions : List (ℤ × ℤ) :=
  [(1, 0), (0, 1), (-1, 0), (0, -1), (1, 1), (-1, 1), (1, -1), (-1, -1)]

/-- The constant `CARDINAL_COST = 1.0f` (line 21). -/
def cardinalCost : Cost := ⟨1, 0⟩

/-- The constant `DIAGONAL_COST = sqrt(2.0f)` (line 22). -/
def diagonalCost : Cost := ⟨0, 1⟩

/-- Per-move cost selection `(dir.x != 0 && dir.y != 0) ? DIAGONAL_COST :
CARDINAL_COST` (lines 229, 340). -/
def moveCost (d : ℤ × ℤ) : Cost :=
  if d.1 ≠ 0 ∧ d.2 ≠ 0 then diagonalCost else cardinalCost

/-- Bounds check `nx >= 0 && nx < N && ny >= 0 && ny < N` (lines 227, 338). -/
def inBounds (N : ℕ) (c : Coord) : Prop :=
  0 ≤ c.1 ∧ c.1 < (N : ℤ) ∧ 0 ≤ c.2 ∧ c.2 < (N : ℤ)

instance (N : ℕ) (c : Coord) : Decidable (inBounds N c) :=
  inferInstanceAs (Decidable (0 ≤ c.1 ∧ c.1 < (N : ℤ) ∧ 0 ≤ c.2 ∧ c.2 < (N : ℤ)))

/-- A traversable cell: in bounds and not a wall.  `wall p` embeds
`wall[p.y][p.x]`. -/
def okCell (N : ℕ) (wall : Coord → Bool) (c : Coord) : Prop :=
  inBounds N c ∧ wall c = false

instance (N : ℕ) (wall : Coord → Bool) (c : Coord) : Decidable (okCell N wall c) :=
  inferInstanceAs (Decidable (inBounds N c ∧ wall c = false))

/-- Adjacency of grid cells: the difference is one of the 8 offsets. -/
def Adjacent (c d : Coord) : Prop := (d.1 - c.1, d.2 - c.2) ∈ directions

instance (c d : Coord) : Decidable (Adjacent c d) :=
  inferInstanceAs (Decidable ((d.1 - c.1, d.2 - c.2) ∈ directions))

/-- A decision procedure for adjacency chains that the kernel can evaluate
on concrete paths (the library instance is built by tactics and does not
reduce). -/
def decChainAdj (a : Coord) (l : List Coord) : Decidable (List.Chain Adjacent a l) :=
  match l with
  | [] => isTrue List.Chain.nil
  | b :: l' =>
    have : Decidable (Adjacent a b ∧ List.Chain Adjacent b l') :=
      @instDecidableAnd _ _ inferInstance (decChainAdj b l')
    decidable_of_decidable_of_iff List.chain_cons.symm

instance (priority := 1001) (a : Coord) (l : List Coord) :
    Decidable (List.Chain Adjacent a l) := decChainAdj a l

instance (priority := 1001) (l : List Coord) : Decidable (List.Chain' Adjacent l) :=
  match l with
  | [] => isTrue trivial
  | a :: l' => decChainAdj a l'

/-- The cost of the move from `c` to an adjacent cell `d`. -/
def edgeCost (c d : Coord) : Cost := moveCost (d.1 - c.1, d.2 - c.2)

/-- Total cost of a coordinate sequence: sum of the costs of consecutive moves. -/
def pathCost : List Coord → Cost
  | c :: d :: rest => edgeCost c d + pathCost (d :: rest)
  | _ => 0

/-- A valid path: nonempty, every cell traversable, consecutive cells adjacent. -/
def ValidPath (N : ℕ) (wall : Coord → Bool) (p : List Coord) : Prop :=
  p ≠ [] ∧ (∀ c ∈ p, okCell N wall c) ∧ List.Chain' Adjacent p

instance (N : ℕ) (wall : Coord → Bool) (p : List Coord) : Decidable (ValidPath N wall p) :=
  inferInstanceAs (Decidable (p ≠ [] ∧ (∀ c ∈ p, okCell N wall c) ∧ List.Chain' Adjacent p))

/-- A valid path leading from `s` to `e`. -/
def PathFrom (N : ℕ) (wall : Coord → Bool) (s e : Coord) (p : List Coord) : Prop :=
  ValidPath N wall p ∧ p.head? = some s ∧ p.getLast? = some e

instance (N : ℕ) (wall : Coord → Bool) (s e : Coord) (p : List Coord) :
    Decidable (PathFrom N wall s e p) :=
  inferInstanceAs (Decidable (ValidPath N wall p ∧ p.head? = some s ∧ p.getLast? = some e))

/-! ## Trace events -/

/-- Semantic tag of an animation step: `Tag.frontier` is the cyan "open" color,
`Tag.visited` the grey color `(100, 100, 100)`, `Tag.pathMember` the final path
color (green for Dijkstra, magenta for A*). -/
inductive Tag
  | frontier
  | visited
  | pathMember
deriving DecidableEq

/-- An `AnimationStep` (line 30): a coordinate with its semantic color. -/
abbrev Event := Coord × Tag

/-! ## The search engine shared by the Dijkstra block (lines 184-275) and the
A* block (lines 288-387).  The two inline blocks differ only in the priority
key: the Dijkstra frontier is keyed by the accumulated cost `d` while the A*
frontier is keyed by `f = g + heuristic`, with the heuristic a function of the
coordinate alone.  We embed one engine parametrized by the heuristic `hf`
(`hZero` for Dijkstra, `cheb endc` for A*); a pending entry stores `(g, c)`
and its stored key `f = g + hf c` is recomputed at comparison time, which is
exact-arithmetic equal to the float `f` stored at push time (line 347). -/

/-- Static parameters of one search invocation. -/
structure Ctx where
  N : ℕ
  wall : Coord → Bool
  startc : Coord
  endc : Coord
  hf : Coord → Cost

/-- Mutable state of one search invocation: the cost matrix (`dist` in the
Dijkstra block, `g_cost` in the A* block; `none` is the `FLT_MAX` sentinel),
the predecessor matrix (`none` embeds the `(-1, -1)` sentinel), the pending
frontier, the emitted animation steps, and whether the goal-pop `break` has
happened. -/
structure SState where
  dist : Coord → Option Cost
  prev : Coord → Option Coord
  pq : List (Cost × Coord)
  events : List Event
  done : Bool

/-- Priority key of a pending entry: `g + hf c`.  For Dijkstra `hf = hZero`
so the key is the stored cost itself. -/
def key (ctx : Ctx) (e : Cost × Coord) : Cost := e.1 + ctx.hf e.2

/-- Embeds `pq.top(); pq.pop()`: removes a minimal-key entry, the first such
entry of the pending list (the C++ heap breaks ties arbitrarily; this is one
deterministic refinement). -/
def selMin (ctx : Ctx) : List (Cost × Coord) → Option ((Cost × Coord) × List (Cost × Coord))
  | [] => none
  | e :: rest =>
    match selMin ctx rest with
    | none => some (e, [])
    | some (m, rest') =>
      if Cost.leB (key ctx e) (key ctx m) then some (e, rest) else some (m, e :: rest')

/-- The comparison `nd < dist[ny][nx]` (line 231) / `ng < g_cost[ny][nx]`
(line 342) against the infinity sentinel. -/
def ltOptB (x : Cost) (d : Option Cost) : Bool :=
  match d with
  | none => true
  | some d => Cost.ltB x d

/-- The stale-pop test `cd > dist[cy][cx] + epsilon` (line 211) /
`cg > g_cost[cy][cx] + epsilon` (line 322), in exact arithmetic (the epsilon
absorbs float rounding only, so exactly it is the strict comparison). -/
def staleB (g : Cost) (d : Option Cost) : Bool :=
  match d with
  | none => false
  | some d => Cost.ltB d g

/-- One iteration of the inner `for (auto &dir : directions)` body
(lines 223-243 and 334-355): bounds and wall check, tentative cost, strict
improvement check, then update of cost, predecessor, frontier and the guarded
cyan event. -/
def relaxOne (ctx : Ctx) (c : Coord) (g : Cost) (st : SState) (dir : ℤ × ℤ) : SState :=
  let n : Coord := (c.1 + dir.1, c.2 + dir.2)
  if inBounds ctx.N n ∧ ctx.wall n = false then
    let ng := g + moveCost dir
    if ltOptB ng (st.dist n) then
      { dist := fun d => if d = n then some ng else st.dist d
        prev := fun d => if d = n then some c else st.prev d
        pq := st.pq ++ [(ng, n)]
        events :=
          if n = ctx.startc ∨ n = ctx.endc then st.events
          else st.events ++ [(n, Tag.frontier)]
        done := st.done }
    else st
  else st

/-- The full neighbor loop over the 8 directions. -/
def expand (ctx : Ctx) (c : Coord) (g : Cost) (st : SState) : SState :=
  List.foldl (relaxOne ctx c g) st directions

/-- One iteration of `while (!pq.empty())` (lines 203-244 and 314-356): pop a
minimal entry, discard if stale, emit the guarded grey event, `break` on the
goal, otherwise expand the neighbors. -/
def step (ctx : Ctx) (st : SState) : SState :=
  if st.done then st
  else
    match selMin ctx st.pq with
    | none => st
    | some ((g, c), rest) =>
      if staleB g (st.dist c) then { st with pq := rest }
      else
        let st1 : SState :=
          { st with
            pq := rest
            events :=
              if c = ctx.startc ∨ c = ctx.endc then st.events
              else st.events ++ [(c, Tag.visited)] }
        if c = ctx.endc then { st1 with done := true } else expand ctx c g st1

/-- The state after lines 199-201 / 310-312: zero cost at Start, one pending
entry, and the initial unguarded cyan step for the Start cell. -/
def initState (ctx : Ctx) : SState :=
  { dist := fun d => if d = ctx.startc then some 0 else none
    prev := fun _ => none
    pq := [(0, ctx.startc)]
    events := [(ctx.startc, Tag.frontier)]
    done := false }

/-- Fuel bound for the search loop; we prove the loop reaches a terminal state
(goal break or empty frontier) within this many iterations, so the fuelled
run coincides with the unbounded C++ loop. -/
def searchFuel (N : ℕ) : ℕ := 6 * N * N + 2

/-- The state at which the C++ `while` loop has exited. -/
def finalState (ctx : Ctx) : SState :=
  (step ctx)^[searchFuel ctx.N] (initState ctx)

/-- The reconstruction walk `while (!(tx == startX && ty == startY))`
(lines 250-258 and 362-370) with the final reverse (line 258 / 370).  The C++
loop is unbounded and would follow the `(-1, -1)` sentinel out of the grid if
the chain missed Start; we run it with fuel and return `none` in that case,
and prove the case unreachable (within `N * N` steps the chain reaches
Start). -/
def reconAux (pv : Coord → Option Coord) (startc : Coord) :
    ℕ → Coord → List Coord → Option (List Coord)
  | fuel, t, acc =>
    if t = startc then some (List.reverse (acc ++ [t]))
    else
      match fuel with
      | 0 => none
      | fuel' + 1 =>
        match pv t with
        | none => none
        | some p => reconAux pv startc fuel' p (acc ++ [t])

/-- Path reconstruction from the final search state. -/
def reconPath (ctx : Ctx) (st : SState) : Option (List Coord) :=
  reconAux st.prev ctx.startc (ctx.N * ctx.N) ctx.endc []

/-- The outcome surfaced by a run: the reconstructed path, or the
"No Path Found!" message. -/
inductive SearchResult
  | found : List Coord → SearchResult
  | notFound
deriving DecidableEq

/-- The loop over `finalPath` appending guarded path-colored events
(lines 261-267 and 373-379). -/
def pathEvents (ctx : Ctx) (p : List Coord) (evs : List Event) : List Event :=
  List.foldl
    (fun es q =>
      if q = ctx.startc ∨ q = ctx.endc then es else es ++ [(q, Tag.pathMember)])
    evs p

/-- A complete run of one search block: the loop, the finiteness test
`dist[ty][tx] < max` (line 248 / 360), reconstruction and path events on
success, the failure message otherwise. -/
def runSearch (ctx : Ctx) : SearchResult × List Event :=
  let st := finalState ctx
  match st.dist ctx.endc with
  | some _ =>
    match reconPath ctx st with
    | some p => (SearchResult.found p, pathEvents ctx p st.events)
    | none => (SearchResult.notFound, st.events)
  | none => (SearchResult.notFound, st.events)

/-- The trivial heuristic of the Dijkstra block: priority is the accumulated
cost itself. -/
def hZero : Coord → Cost := fun _ => 0

/-- The A* heuristic (lines 303-308): Chebyshev distance
`max(|x - endX|, |y - endY|)` to the goal, an exact natural number. -/
def cheb (e : Coord) (c : Coord) : Cost := ⟨max (c.1 - e.1).natAbs (c.2 - e.2).natAbs, 0⟩

/-- Parameters of the Dijkstra block (lines 184-275). -/
def dijkstraCtx (N : ℕ) (wall : Coord → Bool) (s e : Coord) : Ctx :=
  ⟨N, wall, s, e, hZero⟩

/-- Parameters of the A* block (lines 288-387). -/
def astarCtx (N : ℕ) (wall : Coord → Bool) (s e : Coord) : Ctx :=
  ⟨N, wall, s, e, cheb e⟩

/-- A full Dijkstra-button run. -/
def dijkstraRun (N : ℕ) (wall : Coord → Bool) (s e : Coord) : SearchResult × List Event :=
  runSearch (dijkstraCtx N wall s e)

/-- A full A*-button run. -/
def astarRun (N : ℕ) (wall : Coord → Bool) (s e : Coord) : SearchResult × List Event :=
  runSearch (astarCtx N wall s e)

/-- Extracts a found path's total cost. -/
def resultCost : SearchResult → Option Cost
  | SearchResult.found p => some (pathCost p)
  | SearchResult.notFound => none

/-! ## The wall-toggle click handler (lines 156-172) -/

/-- The constant `GRID_SIZE` (line 11). -/
def GRID_SIZE : ℕ := 20

/-- The constant `CELL_SIZE` (line 12). -/
def CELL_SIZE : ℕ := 25

/-- A left click at pixel `(mx, my)`: inside the grid area it computes the
cell and toggles its wall flag unless the cell is Start or End
(lines 156-164). -/
def clickToggle (startc endc : Coord) (wall : Coord → Bool) (m : ℤ × ℤ) : Coord → Bool :=
  if 0 ≤ m.1 ∧ m.1 < (GRID_SIZE : ℤ) * (CELL_SIZE : ℤ) ∧
      0 ≤ m.2 ∧ m.2 < (GRID_SIZE : ℤ) * (CELL_SIZE : ℤ) then
    let col := m.1 / (CELL_SIZE : ℤ)
    let row := m.2 / (CELL_SIZE : ℤ)
    if (col = startc.1 ∧ row = startc.2) ∨ (col = endc.1 ∧ row = endc.2) then wall
    else fun c => if c = (col, row) then !(wall c) else wall c
  else wall

/-- The wall grid after a sequence of left clicks, from the all-false initial
grid (line 53), with the source's fixed Start `(0, 0)` and End `(19, 19)`
(lines 58-59). -/
def wallAfterClicks (clicks : List (ℤ × ℤ)) : Coord → Bool :=
  List.foldl (clickToggle (0, 0) (19, 19)) (fun _ => false) clicks

/-! ## Basic facts about costs, moves and paths -/

theorem Cost.leB_false_iff (x y : Cost) : Cost.leB x y = false ↔ y.toReal < x.toReal := by
  rw [← Bool.not_eq_true, not_iff_comm, Cost.leB_iff, not_lt]

theorem Cost.ltB_false_iff (x y : Cost) : Cost.ltB x y = false ↔ y.toReal ≤ x.toReal := by
  rw [← Bool.not_eq_true, not_iff_comm, Cost.ltB_iff, not_le]

theorem one_le_sqrt_two : (1 : ℝ) ≤ Real.sqrt 2 := by
  rw [show (1 : ℝ) = Real.sqrt 1 from Real.sqrt_one.symm]
  exact Real.sqrt_le_sqrt (by norm_num)

theorem cardinalCost_toReal : cardinalCost.toReal = 1 := by
  rw [Cost.toReal_eq]
  norm_num [cardinalCost]

theorem diagonalCost_toReal : diagonalCost.toReal = Real.sqrt 2 := by
  rw [Cost.toReal_eq]
  norm_num [diagonalCost]

/-- Every move costs at least 1. -/
theorem one_le_moveCost (d : ℤ × ℤ) : 1 ≤ (moveCost d).toReal := by
  unfold moveCost
  split
  · rw [diagonalCost_toReal]
    exact one_le_sqrt_two
  · rw [cardinalCost_toReal]

theorem moveCost_pos (d : ℤ × ℤ) : 0 < (moveCost d).toReal :=
  lt_of_lt_of_le one_pos (one_le_moveCost d)

/-- The coordinate reached by applying an offset. -/
def stepTo (c : Coord) (dir : ℤ × ℤ) : Coord := (c.1 + dir.1, c.2 + dir.2)

theorem adjacent_stepTo {dir : ℤ × ℤ} (h : dir ∈ directions) (c : Coord) :
    Adjacent c (stepTo c dir) := by
  unfold Adjacent stepTo
  have : (c.1 + dir.1 - c.1, c.2 + dir.2 - c.2) = dir := by
    cases dir
    simp
  rw [this]
  exact h

theorem edgeCost_stepTo (c : Coord) (dir : ℤ × ℤ) :
    edgeCost c (stepTo c dir) = moveCost dir := by
  unfold edgeCost stepTo
  congr 1
  cases dir
  simp

/-- An adjacent cell is reached by a direction offset. -/
theorem adjacent_iff_stepTo {c d : Coord} :
    Adjacent c d ↔ ∃ dir ∈ directions, d = stepTo c dir := by
  constructor
  · intro h
    refine ⟨(d.1 - c.1, d.2 - c.2), h, ?_⟩
    unfold stepTo
    cases d
    simp
  · rintro ⟨dir, hdir, rfl⟩
    exact adjacent_stepTo hdir c

theorem pathCost_cons_cons (c d : Coord) (r : List Coord) :
    pathCost (c :: d :: r) = edgeCost c d + pathCost (d :: r) := rfl

theorem pathCost_single (c : Coord) : pathCost [c] = 0 := rfl

theorem pathCost_nonneg (p : List Coord) : 0 ≤ (pathCost p).toReal :=
  Cost.toReal_nonneg _

/-- Appending one cell adds the final edge cost. -/
theorem pathCost_append_last (p : List Coord) (x t : Coord) (h : p.getLast? = some x) :
    pathCost (p ++ [t]) = pathCost p + edgeCost x t := by
  induction p generalizing x with
  | nil => simp at h
  | cons c r ih =>
    cases r with
    | nil =>
      have hcx : c = x := by simpa using h
      subst hcx
      show pathCost [c, t] = pathCost [c] + edgeCost c t
      rw [pathCost_single, zero_add, pathCost_cons_cons, pathCost_single, add_zero]
    | cons d r' =>
      have h' : (d :: r').getLast? = some x := by
        rwa [List.getLast?_cons_cons] at h
      show pathCost (c :: d :: (r' ++ [t])) = pathCost (c :: d :: r') + edgeCost x t
      rw [pathCost_cons_cons]
      have hr : d :: (r' ++ [t]) = (d :: r') ++ [t] := rfl
      rw [hr, ih x h', pathCost_cons_cons, add_assoc]

/-! ## Facts about the frontier pop -/

theorem selMin_nil (ctx : Ctx) : selMin ctx [] = none := rfl

theorem selMin_cons (ctx : Ctx) (e : Cost × Coord) (rest : List (Cost × Coord)) :
    selMin ctx (e :: rest) =
      match selMin ctx rest with
      | none => some (e, [])
      | some (m, rest') =>
        if Cost.leB (key ctx e) (key ctx m) then some (e, rest) else some (m, e :: rest') := rfl

theorem selMin_eq_none {ctx : Ctx} {l : List (Cost × Coord)} (h : selMin ctx l = none) :
    l = [] := by
  cases l with
  | nil => rfl
  | cons e rest =>
    rw [selMin_cons] at h
    cases hrec : selMin ctx rest with
    | none => rw [hrec] at h; cases h
    | some p =>
      obtain ⟨m, rest'⟩ := p
      rw [hrec] at h
      dsimp only at h
      by_cases hle : Cost.leB (key ctx e) (key ctx m) = true
      · rw [if_pos hle] at h; cases h
      · rw [if_neg hle] at h; cases h

/-- The pop returns an entry of the list, the remaining entries as a
permutation, and the entry has minimal key. -/
theorem selMin_spec (ctx : Ctx) :
    ∀ (l : List (Cost × Coord)) (m : Cost × Coord) (rest : List (Cost × Coord)),
      selMin ctx l = some (m, rest) →
      l.Perm (m :: rest) ∧ ∀ e ∈ l, (key ctx m).toReal ≤ (key ctx e).toReal := by
  intro l
  induction l with
  | nil => intro m rest h; rw [selMin_nil] at h; cases h
  | cons e tail ih =>
    intro m rest h
    rw [selMin_cons] at h
    cases hrec : selMin ctx tail with
    | none =>
      rw [hrec] at h
      dsimp only at h
      have htail : tail = [] := selMin_eq_none hrec
      subst htail
      injection h with h1
      injection h1 with h1a h1b
      subst h1a
      rw [← h1b]
      exact ⟨List.Perm.refl _, by intro x hx; simp at hx; subst hx; exact le_refl _⟩
    | some p =>
      obtain ⟨m', rest'⟩ := p
      rw [hrec] at h
      dsimp only at h
      obtain ⟨hperm', hmin'⟩ := ih m' rest' hrec
      by_cases hle : Cost.leB (key ctx e) (key ctx m') = true
      · rw [if_pos hle] at h
        injection h with h1
        injection h1 with h1a h1b
        subst h1a
        subst h1b
        refine ⟨List.Perm.refl _, ?_⟩
        intro x hx
        rcases List.mem_cons.mp hx with rfl | hx'
        · exact le_refl _
        · exact le_trans ((Cost.leB_iff _ _).mp hle) (hmin' x hx')
      · rw [if_neg hle] at h
        injection h with h1
        injection h1 with h1a h1b
        subst h1a
        subst h1b
        have hlt : (key ctx m').toReal < (key ctx e).toReal :=
          (Cost.leB_false_iff _ _).mp (Bool.eq_false_iff.mpr hle)
        constructor
        · exact (List.Perm.cons e hperm').trans (List.Perm.swap m' e rest')
        · intro x hx
          rcases List.mem_cons.mp hx with rfl | hx'
          · exact hlt.le
          · exact hmin' x hx'

theorem selMin_self_mem {ctx : Ctx} {l : List (Cost × Coord)} {m : Cost × Coord}
    {rest : List (Cost × Coord)} (h : selMin ctx l = some (m, rest)) : m ∈ l :=
  ((selMin_spec ctx l m rest h).1.mem_iff).mpr (List.mem_cons_self m rest)

theorem selMin_rest_subset {ctx : Ctx} {l : List (Cost × Coord)} {m : Cost × Coord}
    {rest : List (Cost × Coord)} (h : selMin ctx l = some (m, rest)) :
    ∀ e ∈ rest, e ∈ l := by
  intro e he
  exact ((selMin_spec ctx l m rest h).1.mem_iff).mpr (List.mem_cons_of_mem m he)

theorem selMin_mem_rest {ctx : Ctx} {l : List (Cost × Coord)} {m : Cost × Coord}
    {rest : List (Cost × Coord)} (h : selMin ctx l = some (m, rest)) :
    ∀ e ∈ l, e ≠ m → e ∈ rest := by
  intro e he hne
  rcases List.mem_cons.mp (((selMin_spec ctx l m rest h).1.mem_iff).mp he) with h' | h'
  · exact absurd h' hne
  · exact h'

/-! ## Shape lemmas for one loop iteration -/

theorem directions_ne_zero : ∀ dir ∈ directions, dir ≠ ((0 : ℤ), (0 : ℤ)) := by
  decide

theorem stepTo_ne_self {c : Coord} {dir : ℤ × ℤ} (h : dir ∈ directions) :
    stepTo c dir ≠ c := by
  intro hc
  apply directions_ne_zero dir h
  unfold stepTo at hc
  cases dir with
  | mk d1 d2 =>
    cases c with
    | mk c1 c2 =>
      simp only [Prod.mk.injEq] at hc ⊢
      omega

theorem step_done {ctx : Ctx} {st : SState} (h : st.done = true) : step ctx st = st := by
  unfold step
  rw [h]
  simp

theorem iterate_done {ctx : Ctx} {st : SState} (h : st.done = true) (k : ℕ) :
    (step ctx)^[k] st = st := by
  induction k with
  | zero => rfl
  | succ k ih => rw [Function.iterate_succ_apply, step_done h, ih]

theorem step_empty {ctx : Ctx} {st : SState} (h1 : st.done = false) (h2 : st.pq = []) :
    step ctx st = st := by
  unfold step
  rw [h1, h2]
  simp [selMin_nil]

theorem step_stale {ctx : Ctx} {st : SState} {g : Cost} {c : Coord}
    {rest : List (Cost × Coord)} (h1 : st.done = false)
    (h2 : selMin ctx st.pq = some ((g, c), rest)) (h3 : staleB g (st.dist c) = true) :
    step ctx st = { st with pq := rest } := by
  unfold step
  rw [h1, h2]
  simp [h3]

theorem step_break {ctx : Ctx} {st : SState} {g : Cost} {rest : List (Cost × Coord)}
    (h1 : st.done = false) (h2 : selMin ctx st.pq = some ((g, ctx.endc), rest))
    (h3 : staleB g (st.dist ctx.endc) = false) :
    step ctx st = { st with pq := rest, done := true } := by
  unfold step
  rw [h1, h2]
  simp [h3]

theorem step_expand {ctx : Ctx} {st : SState} {g : Cost} {c : Coord}
    {rest : List (Cost × Coord)} (h1 : st.done = false)
    (h2 : selMin ctx st.pq = some ((g, c), rest)) (h3 : staleB g (st.dist c) = false)
    (h4 : c ≠ ctx.endc) :
    step ctx st =
      expand ctx c g
        { st with
          pq := rest
          events :=
            if c = ctx.startc ∨ c = ctx.endc then st.events
            else st.events ++ [(c, Tag.visited)] } := by
  unfold step
  rw [h1, h2]
  simp [h3, h4]

theorem relaxOne_not_ok {ctx : Ctx} {c : Coord} {g : Cost} {st : SState} {dir : ℤ × ℤ}
    (h : ¬(inBounds ctx.N (stepTo c dir) ∧ ctx.wall (stepTo c dir) = false)) :
    relaxOne ctx c g st dir = st := by
  simp only [relaxOne]
  simp only [stepTo] at h
  exact if_neg h

theorem relaxOne_no_improve {ctx : Ctx} {c : Coord} {g : Cost} {st : SState} {dir : ℤ × ℤ}
    (h : ltOptB (g + moveCost dir) (st.dist (stepTo c dir)) = false) :
    relaxOne ctx c g st dir = st := by
  simp only [relaxOne]
  simp only [stepTo] at h
  split
  · rw [h]
    simp
  · rfl

theorem relaxOne_improve {ctx : Ctx} {c : Coord} {g : Cost} {st : SState} {dir : ℤ × ℤ}
    (hok : inBounds ctx.N (stepTo c dir) ∧ ctx.wall (stepTo c dir) = false)
    (h : ltOptB (g + moveCost dir) (st.dist (stepTo c dir)) = true) :
    relaxOne ctx c g st dir =
      { dist := fun d => if d = stepTo c dir then some (g + moveCost dir) else st.dist d
        prev := fun d => if d = stepTo c dir then some c else st.prev d
        pq := st.pq ++ [(g + moveCost dir, stepTo c dir)]
        events :=
          if stepTo c dir = ctx.startc ∨ stepTo c dir = ctx.endc then st.events
          else st.events ++ [(stepTo c dir, Tag.frontier)]
        done := st.done } := by
  simp only [relaxOne]
  simp only [stepTo] at h hok ⊢
  rw [if_pos hok, h]
  simp

/-! ## Semantics of the option-level comparisons -/

theorem ltOptB_none (x : Cost) : ltOptB x none = true := rfl

theorem ltOptB_some_iff (x d : Cost) : ltOptB x (some d) = true ↔ x.toReal < d.toReal :=
  Cost.ltB_iff x d

theorem ltOptB_some_false_iff (x d : Cost) :
    ltOptB x (some d) = false ↔ d.toReal ≤ x.toReal :=
  Cost.ltB_false_iff x d

theorem staleB_none (g : Cost) : staleB g none = false := rfl

theorem staleB_some_iff (g d : Cost) : staleB g (some d) = true ↔ d.toReal < g.toReal :=
  Cost.ltB_iff d g

theorem staleB_some_false_iff (g d : Cost) :
    staleB g (some d) = false ↔ g.toReal ≤ d.toReal :=
  Cost.ltB_false_iff d g

/-- No improvement can beat the zero cost at Start. -/
theorem ltOptB_zero (g : Cost) (dir : ℤ × ℤ) :
    ltOptB (g + moveCost dir) (some 0) = false := by
  rw [ltOptB_some_false_iff, Cost.toReal_zero, Cost.toReal_add]
  have h1 := Cost.toReal_nonneg g
  have h2 := moveCost_pos dir
  linarith

/-! ## Invariants of the search state -/

/-- Every pending entry's stored cost dominates the recorded cost of its
coordinate. -/
def QOK (st : SState) : Prop :=
  ∀ e ∈ st.pq, ∃ d, st.dist e.2 = some d ∧ d.toReal ≤ e.1.toReal

/-- The neighbor of `c` in direction `dir`, when traversable, has recorded
cost at most `g` plus the move cost. -/
def relaxedTo (ctx : Ctx) (st : SState) (c : Coord) (g : Cost) (dir : ℤ × ℤ) : Prop :=
  okCell ctx.N ctx.wall (stepTo c dir) →
    ∃ d', st.dist (stepTo c dir) = some d' ∧
      d'.toReal ≤ g.toReal + (moveCost dir).toReal

/-- All 8 neighbors of `c` are relaxed with respect to budget `g`. -/
def relaxedAt (ctx : Ctx) (st : SState) (c : Coord) (g : Cost) : Prop :=
  ∀ dir ∈ directions, relaxedTo ctx st c g dir

/-- Every recorded cell is either still pending at its recorded cost, or has
been fully expanded at its recorded cost. -/
def GInvAt (ctx : Ctx) (st : SState) (x : Coord) : Prop :=
  ∀ g, st.dist x = some g → ((g, x) ∈ st.pq ∨ relaxedAt ctx st x g)

def GInv (ctx : Ctx) (st : SState) : Prop := ∀ x, GInvAt ctx st x

/-- Recorded cells are traversable, and every recorded cell other than Start
has a predecessor link to an adjacent recorded cell accounting for its cost. -/
def prevInv (ctx : Ctx) (st : SState) : Prop :=
  ∀ c d, st.dist c = some d →
    okCell ctx.N ctx.wall c ∧
    (c ≠ ctx.startc → ∃ p dp, st.prev c = some p ∧ Adjacent p c ∧
      st.dist p = some dp ∧ dp.toReal + (edgeCost p c).toReal ≤ d.toReal)

def startInv (ctx : Ctx) (st : SState) : Prop := st.dist ctx.startc = some 0

/-- The event list starts with the unguarded Start frontier event; every
later event avoids Start and End. -/
def evInv (ctx : Ctx) (st : SState) : Prop :=
  st.events.head? = some (ctx.startc, Tag.frontier) ∧
  ∀ ev ∈ st.events.tail, ev.1 ≠ ctx.startc ∧ ev.1 ≠ ctx.endc

/-- The standing invariant of the search loop.  The expansion invariant `gx`
is only claimed while the loop is still running: the goal-pop `break` consumes
the goal's pending entry without expanding it. -/
structure Inv (ctx : Ctx) (st : SState) : Prop where
  start : startInv ctx st
  qok : QOK st
  gx : st.done = false → GInv ctx st
  pv : prevInv ctx st
  ev : evInv ctx st

/-- Recorded costs only improve (later state first). -/
def distLE (s t : SState) : Prop :=
  ∀ x d, t.dist x = some d → ∃ d', s.dist x = some d' ∧ d'.toReal ≤ d.toReal

theorem distLE_refl (t : SState) : distLE t t :=
  fun _ d h => ⟨d, h, le_refl _⟩

theorem distLE_trans {s t u : SState} (h1 : distLE s t) (h2 : distLE t u) : distLE s u := by
  intro x d h
  obtain ⟨d', hd', hle'⟩ := h2 x d h
  obtain ⟨d'', hd'', hle''⟩ := h1 x d' hd'
  exact ⟨d'', hd'', le_trans hle'' hle'⟩

/-- Case analysis of one relaxation: either nothing changes, or the guards
pass and the target is improved. -/
theorem relaxOne_cases (ctx : Ctx) (c : Coord) (g : Cost) (st : SState) (dir : ℤ × ℤ) :
    relaxOne ctx c g st dir = st ∨
    (okCell ctx.N ctx.wall (stepTo c dir) ∧
      ltOptB (g + moveCost dir) (st.dist (stepTo c dir)) = true ∧
      relaxOne ctx c g st dir =
        { dist := fun d => if d = stepTo c dir then some (g + moveCost dir) else st.dist d
          prev := fun d => if d = stepTo c dir then some c else st.prev d
          pq := st.pq ++ [(g + moveCost dir, stepTo c dir)]
          events :=
            if stepTo c dir = ctx.startc ∨ stepTo c dir = ctx.endc then st.events
            else st.events ++ [(stepTo c dir, Tag.frontier)]
          done := st.done }) := by
  by_cases hok : inBounds ctx.N (stepTo c dir) ∧ ctx.wall (stepTo c dir) = false
  · cases hlt : ltOptB (g + moveCost dir) (st.dist (stepTo c dir)) with
    | false => exact Or.inl (relaxOne_no_improve hlt)
    | true => exact Or.inr ⟨hok, rfl, relaxOne_improve hok hlt⟩
  · exact Or.inl (relaxOne_not_ok hok)

theorem relaxOne_distLE (ctx : Ctx) (c : Coord) (g : Cost) (st : SState) (dir : ℤ × ℤ) :
    distLE (relaxOne ctx c g st dir) st := by
  rcases relaxOne_cases ctx c g st dir with h | ⟨hok, hlt, h⟩
  · rw [h]; exact distLE_refl st
  · rw [h]
    intro x d hx
    by_cases hxn : x = stepTo c dir
    · subst hxn
      refine ⟨g + moveCost dir, by simp, ?_⟩
      rw [hx] at hlt
      exact ((ltOptB_some_iff _ _).mp hlt).le
    · exact ⟨d, by simp [hxn, hx], le_refl _⟩

theorem foldl_relaxOne_distLE (ctx : Ctx) (c : Coord) (g : Cost) :
    ∀ (dirs : List (ℤ × ℤ)) (st : SState),
      distLE (List.foldl (relaxOne ctx c g) st dirs) st := by
  intro dirs
  induction dirs with
  | nil => intro st; exact distLE_refl st
  | cons dir dirs ih =>
    intro st
    rw [List.foldl_cons]
    exact distLE_trans (ih _) (relaxOne_distLE ctx c g st dir)

theorem expand_distLE (ctx : Ctx) (c : Coord) (g : Cost) (st : SState) :
    distLE (expand ctx c g st) st :=
  foldl_relaxOne_distLE ctx c g directions st

/-- One relaxation leaves cells other than its target untouched. -/
theorem relaxOne_dist_ne (ctx : Ctx) (c : Coord) (g : Cost) (st : SState) (dir : ℤ × ℤ)
    {x : Coord} (hx : x ≠ stepTo c dir) :
    (relaxOne ctx c g st dir).dist x = st.dist x := by
  rcases relaxOne_cases ctx c g st dir with h | ⟨_, _, h⟩
  · rw [h]
  · rw [h]; simp [hx]

theorem foldl_relaxOne_dist_self (ctx : Ctx) (c : Coord) (g : Cost) :
    ∀ (dirs : List (ℤ × ℤ)) (st : SState), (∀ dir ∈ dirs, stepTo c dir ≠ c) →
      (List.foldl (relaxOne ctx c g) st dirs).dist c = st.dist c := by
  intro dirs
  induction dirs with
  | nil => intro st _; rfl
  | cons dir dirs ih =>
    intro st hne
    rw [List.foldl_cons, ih _ (fun d hd => hne d (List.mem_cons_of_mem dir hd)),
      relaxOne_dist_ne ctx c g st dir (Ne.symm (hne dir (List.mem_cons_self dir dirs)))]

/-- The popped cell's own recorded cost is untouched by its expansion. -/
theorem expand_dist_self (ctx : Ctx) (c : Coord) (g : Cost) (st : SState) :
    (expand ctx c g st).dist c = st.dist c :=
  foldl_relaxOne_dist_self ctx c g directions st (fun _ hd => stepTo_ne_self hd)

/-! ## Preservation of the invariants by one relaxation -/

theorem relaxedTo_mono {s t : SState} (h : distLE s t) {ctx : Ctx} {c : Coord} {g : Cost}
    {dir : ℤ × ℤ} (hr : relaxedTo ctx t c g dir) : relaxedTo ctx s c g dir := by
  intro hok
  obtain ⟨d', hd', hle'⟩ := hr hok
  obtain ⟨d'', hd'', hle''⟩ := h _ _ hd'
  exact ⟨d'', hd'', le_trans hle'' hle'⟩

theorem relaxedAt_mono {s t : SState} (h : distLE s t) {ctx : Ctx} {c : Coord} {g : Cost}
    (hr : relaxedAt ctx t c g) : relaxedAt ctx s c g :=
  fun dir hdir => relaxedTo_mono h (hr dir hdir)

/-- After its own relaxation, the target direction is relaxed. -/
theorem relaxOne_relaxedTo (ctx : Ctx) (c : Coord) (g : Cost) (st : SState) (dir : ℤ × ℤ) :
    relaxedTo ctx (relaxOne ctx c g st dir) c g dir := by
  intro hok
  cases hlt : ltOptB (g + moveCost dir) (st.dist (stepTo c dir)) with
  | true =>
    rw [relaxOne_improve hok hlt]
    exact ⟨g + moveCost dir, by simp, by rw [Cost.toReal_add]⟩
  | false =>
    rw [relaxOne_no_improve hlt]
    cases hd : st.dist (stepTo c dir) with
    | none => rw [hd] at hlt; cases hlt
    | some dn =>
      rw [hd] at hlt
      refine ⟨dn, rfl, ?_⟩
      have := (ltOptB_some_false_iff _ _).mp hlt
      rw [Cost.toReal_add] at this
      exact this

/-- After the whole neighbor loop, every processed direction is relaxed. -/
theorem foldl_relaxOne_relaxes (ctx : Ctx) (c : Coord) (g : Cost) :
    ∀ (dirs : List (ℤ × ℤ)) (st : SState) (dir : ℤ × ℤ), dir ∈ dirs →
      relaxedTo ctx (List.foldl (relaxOne ctx c g) st dirs) c g dir := by
  intro dirs
  induction dirs with
  | nil => intro st dir hd; cases hd
  | cons dir' dirs ih =>
    intro st dir hd
    rw [List.foldl_cons]
    rcases List.mem_cons.mp hd with rfl | hd'
    · exact relaxedTo_mono (foldl_relaxOne_distLE ctx c g dirs _)
        (relaxOne_relaxedTo ctx c g st dir)
    · exact ih _ dir hd'

theorem expand_relaxedAt (ctx : Ctx) (c : Coord) (g : Cost) (st : SState) :
    relaxedAt ctx (expand ctx c g st) c g :=
  fun dir hdir => foldl_relaxOne_relaxes ctx c g directions st dir hdir

theorem relaxOne_done (ctx : Ctx) (c : Coord) (g : Cost) (st : SState) (dir : ℤ × ℤ) :
    (relaxOne ctx c g st dir).done = st.done := by
  rcases relaxOne_cases ctx c g st dir with h | ⟨_, _, h⟩ <;> rw [h]

theorem expand_done (ctx : Ctx) (c : Coord) (g : Cost) (st : SState) :
    (expand ctx c g st).done = st.done := by
  unfold expand
  generalize directions = dirs
  induction dirs generalizing st with
  | nil => rfl
  | cons dir dirs ih => rw [List.foldl_cons, ih, relaxOne_done]

theorem relaxOne_QOK {ctx : Ctx} {c : Coord} {g : Cost} {st : SState} {dir : ℤ × ℤ}
    (h : QOK st) : QOK (relaxOne ctx c g st dir) := by
  rcases relaxOne_cases ctx c g st dir with heq | ⟨hok, hlt, heq⟩
  · rw [heq]; exact h
  · rw [heq]
    intro e he
    rcases List.mem_append.mp he with he' | he'
    · obtain ⟨d, hd, hle⟩ := h e he'
      by_cases hen : e.2 = stepTo c dir
      · rw [hen] at hd
        rw [hd] at hlt
        have hlt' := (ltOptB_some_iff _ _).mp hlt
        exact ⟨g + moveCost dir, by simp [hen], by linarith⟩
      · exact ⟨d, by simp [hen, hd], hle⟩
    · have he'' : e = (g + moveCost dir, stepTo c dir) := by simpa using he'
      subst he''
      exact ⟨g + moveCost dir, by simp, le_refl _⟩

theorem foldl_relaxOne_QOK {ctx : Ctx} {c : Coord} {g : Cost} :
    ∀ (dirs : List (ℤ × ℤ)) (st : SState), QOK st →
      QOK (List.foldl (relaxOne ctx c g) st dirs) := by
  intro dirs
  induction dirs with
  | nil => intro st h; exact h
  | cons dir dirs ih =>
    intro st h
    rw [List.foldl_cons]
    exact ih _ (relaxOne_QOK h)

theorem relaxOne_startInv {ctx : Ctx} {c : Coord} {g : Cost} {st : SState} {dir : ℤ × ℤ}
    (h : startInv ctx st) : startInv ctx (relaxOne ctx c g st dir) := by
  rcases relaxOne_cases ctx c g st dir with heq | ⟨hok, hlt, heq⟩
  · rw [heq]; exact h
  · have hne : ctx.startc ≠ stepTo c dir := by
      intro hc
      rw [← hc] at hlt
      rw [h, ltOptB_zero] at hlt
      cases hlt
    rw [heq]
    show (if ctx.startc = stepTo c dir then _ else st.dist ctx.startc) = some 0
    rw [if_neg hne]
    exact h

theorem foldl_relaxOne_startInv {ctx : Ctx} {c : Coord} {g : Cost} :
    ∀ (dirs : List (ℤ × ℤ)) (st : SState), startInv ctx st →
      startInv ctx (List.foldl (relaxOne ctx c g) st dirs) := by
  intro dirs
  induction dirs with
  | nil => intro st h; exact h
  | cons dir dirs ih =>
    intro st h
    rw [List.foldl_cons]
    exact ih _ (relaxOne_startInv h)

theorem relaxOne_prevInv {ctx : Ctx} {c : Coord} {g : Cost} {st : SState} {dir : ℤ × ℤ}
    (hdir : dir ∈ directions) (hpv : prevInv ctx st) {gc : Cost}
    (hsrc : st.dist c = some gc) (hgc : gc.toReal ≤ g.toReal) :
    prevInv ctx (relaxOne ctx c g st dir) := by
  rcases relaxOne_cases ctx c g st dir with heq | ⟨hok, hlt, heq⟩
  · rw [heq]; exact hpv
  · rw [heq]
    intro x d hx
    dsimp only at hx
    by_cases hxn : x = stepTo c dir
    · rw [if_pos hxn] at hx
      injection hx with hx'
      subst hx'
      refine ⟨hxn ▸ hok, ?_⟩
      intro _
      refine ⟨c, gc, ?_, ?_, ?_, ?_⟩
      · dsimp only
        rw [if_pos hxn]
      · rw [hxn]; exact adjacent_stepTo hdir c
      · have hcn : c ≠ stepTo c dir := (stepTo_ne_self hdir).symm
        dsimp only
        rw [if_neg hcn]
        exact hsrc
      · rw [hxn, edgeCost_stepTo, Cost.toReal_add]
        linarith
    · rw [if_neg hxn] at hx
      obtain ⟨hxok, hxprev⟩ := hpv x d hx
      refine ⟨hxok, ?_⟩
      intro hxs
      obtain ⟨p, dp, hp, hadj, hdp, hcost⟩ := hxprev hxs
      by_cases hpn : p = stepTo c dir
      · rw [hpn] at hdp
        rw [hdp] at hlt
        have hlt' := (ltOptB_some_iff _ _).mp hlt
        refine ⟨p, g + moveCost dir, ?_, hadj, ?_, ?_⟩
        · dsimp only
          rw [if_neg hxn]; exact hp
        · dsimp only
          rw [if_pos hpn]
        · linarith
      · refine ⟨p, dp, ?_, hadj, ?_, hcost⟩
        · dsimp only
          rw [if_neg hxn]; exact hp
        · dsimp only
          rw [if_neg hpn]; exact hdp

theorem foldl_relaxOne_prevInv {ctx : Ctx} {c : Coord} {g : Cost} :
    ∀ (dirs : List (ℤ × ℤ)) (st : SState), (∀ d ∈ dirs, d ∈ directions) →
      prevInv ctx st → ∀ {gc : Cost}, st.dist c = some gc → gc.toReal ≤ g.toReal →
      prevInv ctx (List.foldl (relaxOne ctx c g) st dirs) := by
  intro dirs
  induction dirs with
  | nil => intro st _ h _ _ _; exact h
  | cons dir dirs ih =>
    intro st hsub h gc hsrc hgc
    rw [List.foldl_cons]
    have hdir : dir ∈ directions := hsub dir (List.mem_cons_self dir dirs)
    have hsrc' : (relaxOne ctx c g st dir).dist c = some gc := by
      rw [relaxOne_dist_ne ctx c g st dir (Ne.symm (stepTo_ne_self hdir))]
      exact hsrc
    exact ih _ (fun d hd => hsub d (List.mem_cons_of_mem dir hd))
      (relaxOne_prevInv hdir h hsrc hgc) hsrc' hgc

theorem relaxOne_evInv {ctx : Ctx} {c : Coord} {g : Cost} {st : SState} {dir : ℤ × ℤ}
    (h : evInv ctx st) : evInv ctx (relaxOne ctx c g st dir) := by
  rcases relaxOne_cases ctx c g st dir with heq | ⟨hok, hlt, heq⟩
  · rw [heq]; exact h
  · rw [heq]
    obtain ⟨hhead, htail⟩ := h
    by_cases hg : stepTo c dir = ctx.startc ∨ stepTo c dir = ctx.endc
    · simp only [if_pos hg]
      exact ⟨hhead, htail⟩
    · simp only [if_neg hg]
      push_neg at hg
      cases hevs : st.events with
      | nil => rw [hevs] at hhead; cases hhead
      | cons e0 tl =>
        rw [hevs] at hhead htail
        constructor
        · simpa using hhead
        · intro ev hev
          simp only [List.cons_append, List.tail_cons] at hev
          rcases List.mem_append.mp hev with hev' | hev'
          · exact htail ev hev'
          · have : ev = (stepTo c dir, Tag.frontier) := by simpa using hev'
            subst this
            exact ⟨hg.1, hg.2⟩

theorem foldl_relaxOne_evInv {ctx : Ctx} {c : Coord} {g : Cost} :
    ∀ (dirs : List (ℤ × ℤ)) (st : SState), evInv ctx st →
      evInv ctx (List.foldl (relaxOne ctx c g) st dirs) := by
  intro dirs
  induction dirs with
  | nil => intro st h; exact h
  | cons dir dirs ih =>
    intro st h
    rw [List.foldl_cons]
    exact ih _ (relaxOne_evInv h)

theorem relaxOne_GInvAt {ctx : Ctx} {c : Coord} {g : Cost} {st : SState} {dir : ℤ × ℤ}
    {x : Coord} (h : GInvAt ctx st x) : GInvAt ctx (relaxOne ctx c g st dir) x := by
  rcases relaxOne_cases ctx c g st dir with heq | ⟨hok, hlt, heq⟩
  · rw [heq]; exact h
  · rw [heq]
    intro gx hgx
    simp only at hgx
    by_cases hxn : x = stepTo c dir
    · rw [if_pos hxn] at hgx
      injection hgx with hgx'
      subst hgx'
      left
      rw [hxn]
      exact List.mem_append.mpr (Or.inr (by simp))
    · rw [if_neg hxn] at hgx
      rcases h gx hgx with hmem | hrel
      · left
        exact List.mem_append.mpr (Or.inl hmem)
      · right
        refine relaxedAt_mono ?_ hrel
        rw [← heq]
        exact relaxOne_distLE ctx c g st dir

theorem foldl_relaxOne_GInvAt {ctx : Ctx} {c : Coord} {g : Cost} :
    ∀ (dirs : List (ℤ × ℤ)) (st : SState) (x : Coord), GInvAt ctx st x →
      GInvAt ctx (List.foldl (relaxOne ctx c g) st dirs) x := by
  intro dirs
  induction dirs with
  | nil => intro st x h; exact h
  | cons dir dirs ih =>
    intro st x h
    rw [List.foldl_cons]
    exact ih _ x (relaxOne_GInvAt h)

/-! ## Preservation of the invariants by one loop iteration -/

/-- A non-stale pop carries exactly the recorded cost. -/
theorem popped_cost_eq {g dc : Cost} (h1 : staleB g (some dc) = false)
    (h2 : dc.toReal ≤ g.toReal) : dc = g :=
  Cost.toReal_inj (le_antisymm h2 ((staleB_some_false_iff g dc).mp h1))

/-- Appending one guarded event preserves the event-list invariant. -/
theorem evGuard_append {startc endc : Coord} {l : List Event}
    (hh : l.head? = some (startc, Tag.frontier))
    (ht : ∀ ev ∈ l.tail, ev.1 ≠ startc ∧ ev.1 ≠ endc) (c : Coord) (tag : Tag) :
    (if c = startc ∨ c = endc then l else l ++ [(c, tag)]).head? =
        some (startc, Tag.frontier) ∧
      ∀ ev ∈ (if c = startc ∨ c = endc then l else l ++ [(c, tag)]).tail,
        ev.1 ≠ startc ∧ ev.1 ≠ endc := by
  by_cases hg : c = startc ∨ c = endc
  · rw [if_pos hg]
    exact ⟨hh, ht⟩
  · rw [if_neg hg]
    push_neg at hg
    cases hl : l with
    | nil => rw [hl] at hh; cases hh
    | cons e0 tl =>
      rw [hl] at hh ht
      constructor
      · simpa using hh
      · intro ev hev
        simp only [List.cons_append, List.tail_cons] at hev
        rcases List.mem_append.mp hev with hev' | hev'
        · exact ht ev hev'
        · have : ev = (c, tag) := by simpa using hev'
          subst this
          exact ⟨hg.1, hg.2⟩

theorem inv_initState (ctx : Ctx) (hs : okCell ctx.N ctx.wall ctx.startc) :
    Inv ctx (initState ctx) := by
  constructor
  · show (if ctx.startc = ctx.startc then some 0 else none) = some 0
    rw [if_pos rfl]
  · intro e he
    have : e = ((0 : Cost), ctx.startc) := by simpa [initState] using he
    subst this
    exact ⟨0, by simp [initState], le_refl _⟩
  · intro _ x g hg
    simp only [initState] at hg
    by_cases hxs : x = ctx.startc
    · rw [if_pos hxs] at hg
      injection hg with hg'
      subst hg'
      left
      rw [hxs]
      simp [initState]
    · rw [if_neg hxs] at hg
      cases hg
  · intro c d hc
    simp only [initState] at hc
    by_cases hcs : c = ctx.startc
    · rw [if_pos hcs] at hc
      refine ⟨hcs ▸ hs, ?_⟩
      intro hne
      exact absurd hcs hne
    · rw [if_neg hcs] at hc
      cases hc
  · constructor
    · simp [initState]
    · intro ev hev
      simp [initState] at hev

theorem inv_step (ctx : Ctx) {st : SState}
    (h : Inv ctx st) : Inv ctx (step ctx st) := by
  cases hdone : st.done with
  | true => rw [step_done hdone]; exact h
  | false =>
  cases hsel : selMin ctx st.pq with
  | none =>
    rw [step_empty hdone (selMin_eq_none hsel)]
    exact h
  | some p =>
  obtain ⟨⟨g, c⟩, rest⟩ := p
  have hmem : (g, c) ∈ st.pq := selMin_self_mem hsel
  obtain ⟨dc, hdc, hdcle⟩ := h.qok (g, c) hmem
  cases hstale : staleB g (st.dist c) with
  | true =>
    rw [step_stale hdone hsel hstale]
    refine ⟨h.start, ?_, ?_, h.pv, h.ev⟩
    · intro e he
      exact h.qok e (selMin_rest_subset hsel e he)
    · intro _ x gx hgx
      rcases h.gx hdone x gx hgx with hmem' | hrel
      · left
        apply selMin_mem_rest hsel _ hmem'
        intro hc
        injection hc with hc1 hc2
        subst hc1
        subst hc2
        rw [hgx] at hstale
        exact absurd ((staleB_some_iff _ _).mp hstale) (lt_irrefl _)
      · right
        exact hrel
  | false =>
  rw [hdc] at hstale
  have hceq : dc = g := popped_cost_eq hstale hdcle
  by_cases hcend : c = ctx.endc
  · rw [hcend] at hsel hdc
    rw [step_break hdone hsel (by rw [hdc]; exact hstale)]
    refine ⟨h.start, ?_, ?_, h.pv, h.ev⟩
    · intro e he
      exact h.qok e (selMin_rest_subset hsel e he)
    · intro hfalse
      cases hfalse
  · rw [step_expand hdone hsel (by rw [hdc]; exact hstale) hcend]
    set st1 : SState :=
      { st with
        pq := rest
        events :=
          if c = ctx.startc ∨ c = ctx.endc then st.events
          else st.events ++ [(c, Tag.visited)] } with hst1
    have hdist1 : st1.dist = st.dist := rfl
    have hdc1 : st1.dist c = some dc := hdc
    refine ⟨?_, ?_, ?_, ?_, ?_⟩
    · exact foldl_relaxOne_startInv directions st1 h.start
    · refine foldl_relaxOne_QOK directions st1 ?_
      intro e he
      exact h.qok e (selMin_rest_subset hsel e he)
    · intro _
      intro x
      by_cases hxc : x = c
      · subst hxc
        intro gx hgx
        rw [expand_dist_self, hdc1] at hgx
        injection hgx with hgx'
        right
        rw [← hgx', hceq]
        exact expand_relaxedAt ctx x g st1
      · refine foldl_relaxOne_GInvAt directions st1 x ?_
        intro gx hgx
        rcases h.gx hdone x gx hgx with hmem' | hrel
        · left
          apply selMin_mem_rest hsel _ hmem'
          intro hc
          injection hc with hc1 hc2
          exact hxc hc2
        · right
          exact hrel
    · exact foldl_relaxOne_prevInv directions st1 (fun d hd => hd) h.pv hdc1 (le_of_eq (by rw [hceq]))
    · obtain ⟨hh, ht⟩ := h.ev
      exact foldl_relaxOne_evInv directions st1 (evGuard_append hh ht c Tag.visited)

theorem inv_iterate (ctx : Ctx) {st : SState}
    (h : Inv ctx st) (k : ℕ) : Inv ctx ((step ctx)^[k] st) := by
  induction k with
  | zero => exact h
  | succ k ih =>
    rw [Function.iterate_succ_apply']
    exact inv_step ctx ih

theorem inv_finalState (ctx : Ctx) (hs : okCell ctx.N ctx.wall ctx.startc) :
    Inv ctx (finalState ctx) :=
  inv_iterate ctx (inv_initState ctx hs) _

/-! ## Optimality of the search -/

/-- Consistency of a heuristic: one move never decreases `h` by more than the
move cost. -/
def Consistent (ctx : Ctx) : Prop :=
  ∀ c d, Adjacent c d → (ctx.hf c).toReal ≤ (edgeCost c d).toReal + (ctx.hf d).toReal

/-- A consistent heuristic underestimates the cost of every chain to `z`. -/
theorem adm_along (ctx : Ctx) (hcons : Consistent ctx) :
    ∀ (q : List Coord) (a z : Coord), List.Chain' Adjacent (a :: q) →
      (a :: q).getLast? = some z →
      (ctx.hf a).toReal ≤ (pathCost (a :: q)).toReal + (ctx.hf z).toReal := by
  intro q
  induction q with
  | nil =>
    intro a z _ hz
    have : a = z := by simpa using hz
    subst this
    rw [pathCost_single, Cost.toReal_zero]
    linarith
  | cons b q' ih =>
    intro a z hchain hz
    obtain ⟨hab, hchain'⟩ := List.chain'_cons.mp hchain
    have hz' : (b :: q').getLast? = some z := by
      rwa [List.getLast?_cons_cons] at hz
    have h1 := hcons a b hab
    have h2 := ih b z hchain' hz'
    rw [pathCost_cons_cons, Cost.toReal_add]
    linarith

/-- The recorded cost at End is optimal. -/
def OptimalAt (ctx : Ctx) (st : SState) : Prop :=
  ∀ q, PathFrom ctx.N ctx.wall ctx.startc ctx.endc q →
    ∃ d, st.dist ctx.endc = some d ∧ d.toReal ≤ (pathCost q).toReal

/-- Walking any valid chain from a recorded cell: either the chain's endpoint
is recorded within the accumulated budget, or some pending entry bounds an
intermediate cell. -/
theorem cover (ctx : Ctx) {st : SState} (hG : GInv ctx st) (hcons : Consistent ctx) :
    ∀ (q : List Coord) (a z : Coord) (ga : Cost),
      List.Chain' Adjacent (a :: q) → (∀ c ∈ q, okCell ctx.N ctx.wall c) →
      st.dist a = some ga → (a :: q).getLast? = some z →
      (∃ dz, st.dist z = some dz ∧ dz.toReal ≤ ga.toReal + (pathCost (a :: q)).toReal) ∨
      (∃ y gy, st.dist y = some gy ∧ (gy, y) ∈ st.pq ∧
        gy.toReal + (ctx.hf y).toReal ≤
          ga.toReal + (pathCost (a :: q)).toReal + (ctx.hf z).toReal) := by
  intro q
  induction q with
  | nil =>
    intro a z ga _ _ ha hz
    have : a = z := by simpa using hz
    subst this
    left
    refine ⟨ga, ha, ?_⟩
    rw [pathCost_single, Cost.toReal_zero]
    linarith
  | cons b q' ih =>
    intro a z ga hchain hok ha hz
    obtain ⟨hab, hchain'⟩ := List.chain'_cons.mp hchain
    have hz' : (b :: q').getLast? = some z := by
      rwa [List.getLast?_cons_cons] at hz
    have hpc : (pathCost (a :: b :: q')).toReal =
        (edgeCost a b).toReal + (pathCost (b :: q')).toReal := by
      rw [pathCost_cons_cons, Cost.toReal_add]
    rcases hG a ga ha with hmem | hrel
    · right
      refine ⟨a, ga, ha, hmem, ?_⟩
      have := adm_along ctx hcons (b :: q') a z hchain hz
      linarith
    · obtain ⟨dir, hdir, rfl⟩ := adjacent_iff_stepTo.mp hab
      have hbok : okCell ctx.N ctx.wall (stepTo a dir) :=
        hok _ (List.mem_cons_self _ _)
      obtain ⟨db, hdb, hdble⟩ := hrel dir hdir hbok
      rw [edgeCost_stepTo] at hpc
      rcases ih (stepTo a dir) z db hchain'
          (fun c hc => hok c (List.mem_cons_of_mem _ hc)) hdb hz' with
        ⟨dz, hdz, hdzle⟩ | ⟨y, gy, hgy, hymem, hyle⟩
      · left
        exact ⟨dz, hdz, by linarith⟩
      · right
        exact ⟨y, gy, hgy, hymem, by linarith⟩

/-- When the frontier is exhausted, the recorded cost at End beats every
valid path. -/
theorem exhausted_optimal (ctx : Ctx) {st : SState} (hG : GInv ctx st)
    (hcons : Consistent ctx) (hstart : startInv ctx st) (hpq : st.pq = []) :
    OptimalAt ctx st := by
  intro q hq
  obtain ⟨⟨hne, hcells, hchain⟩, hhead, hlast⟩ := hq
  cases q with
  | nil => cases hhead
  | cons q0 tail =>
    have hq0 : q0 = ctx.startc := by simpa using hhead
    subst hq0
    rcases cover ctx hG hcons tail ctx.startc ctx.endc 0 hchain
        (fun c hc => hcells c (List.mem_cons_of_mem _ hc)) hstart hlast with
      ⟨dz, hdz, hdzle⟩ | ⟨y, gy, _, hymem, _⟩
    · refine ⟨dz, hdz, ?_⟩
      rw [Cost.toReal_zero] at hdzle
      linarith
    · rw [hpq] at hymem
      cases hymem

/-- When the goal is popped non-stale with minimal key, its recorded cost
beats every valid path. -/
theorem break_optimal (ctx : Ctx) {st : SState} (h : Inv ctx st)
    (hdone : st.done = false) (hcons : Consistent ctx) (hf0 : ctx.hf ctx.endc = 0)
    {g : Cost} {rest : List (Cost × Coord)}
    (hsel : selMin ctx st.pq = some ((g, ctx.endc), rest))
    (hstale : staleB g (st.dist ctx.endc) = false) : OptimalAt ctx st := by
  obtain ⟨dc, hdc, hdcle⟩ := h.qok (g, ctx.endc) (selMin_self_mem hsel)
  rw [hdc] at hstale
  have hceq : dc = g := popped_cost_eq hstale hdcle
  intro q hq
  obtain ⟨⟨hne, hcells, hchain⟩, hhead, hlast⟩ := hq
  cases q with
  | nil => cases hhead
  | cons q0 tail =>
    have hq0 : q0 = ctx.startc := by simpa using hhead
    subst hq0
    rcases cover ctx (h.gx hdone) hcons tail ctx.startc ctx.endc 0 hchain
        (fun c hc => hcells c (List.mem_cons_of_mem _ hc)) h.start hlast with
      ⟨dz, hdz, hdzle⟩ | ⟨y, gy, hgy, hymem, hyle⟩
    · refine ⟨dz, hdz, ?_⟩
      rw [Cost.toReal_zero] at hdzle
      linarith
    · refine ⟨dc, hdc, ?_⟩
      have hmin := (selMin_spec ctx st.pq _ _ hsel).2 (gy, y) hymem
      have hkey1 : (key ctx (g, ctx.endc)).toReal = g.toReal := by
        show (g + ctx.hf ctx.endc).toReal = g.toReal
        rw [Cost.toReal_add, hf0, Cost.toReal_zero]
        ring
      have hkey2 : (key ctx (gy, y)).toReal = gy.toReal + (ctx.hf y).toReal := by
        show (gy + ctx.hf y).toReal = _
        rw [Cost.toReal_add]
      rw [hkey1, hkey2] at hmin
      rw [hf0, Cost.toReal_zero] at hyle
      rw [hceq]
      linarith

/-- The only way the loop sets `done` is the non-stale goal pop. -/
theorem step_done_cases {ctx : Ctx} {st : SState} (hdone : st.done = false)
    (h' : (step ctx st).done = true) :
    ∃ g rest, selMin ctx st.pq = some ((g, ctx.endc), rest) ∧
      staleB g (st.dist ctx.endc) = false ∧
      step ctx st = { st with pq := rest, done := true } := by
  cases hsel : selMin ctx st.pq with
  | none =>
    rw [step_empty hdone (selMin_eq_none hsel)] at h'
    rw [hdone] at h'
    cases h'
  | some p =>
    obtain ⟨⟨g, c⟩, rest⟩ := p
    cases hstale : staleB g (st.dist c) with
    | true =>
      rw [step_stale hdone hsel hstale] at h'
      rw [hdone] at h'
      cases h'
    | false =>
      by_cases hcend : c = ctx.endc
      · subst hcend
        exact ⟨g, rest, rfl, hstale, step_break hdone hsel hstale⟩
      · rw [step_expand hdone hsel hstale hcend] at h'
        rw [expand_done] at h'
        rw [hdone] at h'
        cases h'

/-- Any terminal state the loop reaches carries an optimal recorded cost at
End. -/
theorem loop_optimal (ctx : Ctx) (hcons : Consistent ctx) (hf0 : ctx.hf ctx.endc = 0) :
    ∀ (fuel : ℕ) (st : SState), Inv ctx st → st.done = false →
      (((step ctx)^[fuel] st).done = true ∨ ((step ctx)^[fuel] st).pq = []) →
      OptimalAt ctx ((step ctx)^[fuel] st) := by
  intro fuel
  induction fuel with
  | zero =>
    intro st h hdone hterm
    rcases hterm with hterm | hterm
    · rw [Function.iterate_zero_apply] at hterm
      rw [hdone] at hterm
      cases hterm
    · rw [Function.iterate_zero_apply] at hterm ⊢
      exact exhausted_optimal ctx (h.gx hdone) hcons h.start hterm
  | succ fuel ih =>
    intro st h hdone hterm
    rw [Function.iterate_succ_apply] at hterm ⊢
    cases hdone' : (step ctx st).done with
    | false => exact ih (step ctx st) (inv_step ctx h) hdone' hterm
    | true =>
      obtain ⟨g, rest, hsel, hstale, heq⟩ := step_done_cases hdone hdone'
      rw [iterate_done hdone' fuel]
      have hopt := break_optimal ctx h hdone hcons hf0 hsel hstale
      intro q hq
      obtain ⟨d, hd, hdle⟩ := hopt q hq
      refine ⟨d, ?_, hdle⟩
      rw [heq]
      exact hd

/-! ## Termination of the search loop.

The potential argument: popped keys never decrease, and every push strictly
improves a cell's key by landing it at the current minimum key plus one of
finitely many reweighted move values `w + h(target) - h(source)`.  Each cell
can therefore be pushed only as many times as there are such values below its
current headroom, giving a potential that strictly decreases at every
non-terminal iteration. -/

def zcAdd (v w : ℤ × ℤ) : ℤ × ℤ := (v.1 + w.1, v.2 + w.2)

def zcLt (v w : ℤ × ℤ) : Bool := !(zcLe w v)

theorem toR_zcAdd (v w : ℤ × ℤ) : toR (zcAdd v w) = toR v + toR w := by
  unfold toR zcAdd
  push_cast
  ring

theorem zcLt_iff (v w : ℤ × ℤ) : zcLt v w = true ↔ toR v < toR w := by
  unfold zcLt
  rw [Bool.not_eq_true']
  constructor
  · intro h
    rcases lt_or_le (toR v) (toR w) with h' | h'
    · exact h'
    · exact absurd ((zcLe_iff w v).mpr h') (by rw [h]; simp)
  · intro h
    rw [← Bool.not_eq_true]
    intro hc
    exact absurd ((zcLe_iff w v).mp hc) (not_le.mpr h)

theorem toR_toZ (x : Cost) : toR x.toZ = x.toReal := rfl

/-- The six possible reweighted move values `w + h(target) - h(source)` of
either search, as `a + b * sqrt 2` pairs: `0`, `1`, `2`, `sqrt 2 - 1`,
`sqrt 2`, `sqrt 2 + 1`. -/
def WF : Finset (ℤ × ℤ) :=
  {((0 : ℤ), (0 : ℤ)), (1, 0), (2, 0), (-1, 1), (0, 1), (1, 1)}

theorem WF_card : WF.card = 6 := by decide

theorem WF_nonneg : ∀ v ∈ WF, 0 ≤ toR v := by
  intro v hv
  have hs := one_le_sqrt_two
  fin_cases hv <;> unfold toR <;> push_cast <;> linarith

/-- The heuristic's reweighted move values all lie in `WF`. -/
def WOK (ctx : Ctx) : Prop :=
  ∀ (c : Coord) (dir : ℤ × ℤ), dir ∈ directions →
    ∃ v ∈ WF, toR v =
      (moveCost dir).toReal + (ctx.hf (stepTo c dir)).toReal - (ctx.hf c).toReal

/-- Remaining-push capacity of one cell against reference key `mk`. -/
def rC (ctx : Ctx) (mk : ℤ × ℤ) (dv : Option Cost) (c : Coord) : ℕ :=
  match dv with
  | none => WF.card
  | some dc => (WF.filter (fun v => zcLt (zcAdd mk v) (dc + ctx.hf c).toZ = true)).card

/-- The bounded grid as a finite set of coordinates. -/
def cells (N : ℕ) : Finset Coord :=
  (Finset.range N ×ˢ Finset.range N).image (fun p => ((p.1 : ℤ), (p.2 : ℤ)))

theorem mem_cells {N : ℕ} {c : Coord} : c ∈ cells N ↔ inBounds N c := by
  unfold cells inBounds
  rw [Finset.mem_image]
  constructor
  · rintro ⟨⟨a, b⟩, hab, rfl⟩
    rw [Finset.mem_product, Finset.mem_range, Finset.mem_range] at hab
    refine ⟨?_, ?_, ?_, ?_⟩ <;> simp <;> omega
  · rintro ⟨h1, h2, h3, h4⟩
    refine ⟨(c.1.toNat, c.2.toNat), ?_, ?_⟩
    · rw [Finset.mem_product, Finset.mem_range, Finset.mem_range]
      constructor <;> simp <;> omega
    · cases c with
    | mk cx cy =>
      simp only [Prod.mk.injEq]
      constructor <;> simp <;> omega

theorem card_cells (N : ℕ) : (cells N).card ≤ N * N := by
  unfold cells
  refine le_trans Finset.card_image_le ?_
  rw [Finset.card_product, Finset.card_range]

/-- The potential against a fixed reference key. -/
def phiR (ctx : Ctx) (mk : ℤ × ℤ) (st : SState) : ℕ :=
  st.pq.length + Finset.sum (cells ctx.N) (fun c => rC ctx mk (st.dist c) c)

/-- The loop potential: zero once the frontier is empty, otherwise the
potential against the current minimal key. -/
def phi (ctx : Ctx) (st : SState) : ℕ :=
  match selMin ctx st.pq with
  | none => 0
  | some (m, _) => phiR ctx (key ctx m).toZ st

theorem rC_le_card (ctx : Ctx) (mk : ℤ × ℤ) (dv : Option Cost) (c : Coord) :
    rC ctx mk dv c ≤ WF.card := by
  unfold rC
  cases dv with
  | none => exact le_refl _
  | some dc => exact Finset.card_le_card (Finset.filter_subset _ _)

/-- Capacity is antitone in the reference key. -/
theorem rC_anti_ref (ctx : Ctx) {mk mk' : ℤ × ℤ} (h : toR mk ≤ toR mk')
    (dv : Option Cost) (c : Coord) : rC ctx mk' dv c ≤ rC ctx mk dv c := by
  unfold rC
  cases dv with
  | none => exact le_refl _
  | some dc =>
    apply Finset.card_le_card
    intro v hv
    rw [Finset.mem_filter] at hv ⊢
    refine ⟨hv.1, ?_⟩
    have hv2 := hv.2
    rw [zcLt_iff] at hv2 ⊢
    rw [toR_zcAdd] at hv2 ⊢
    linarith

/-- Capacity is monotone in the recorded cost. -/
theorem rC_mono_dist (ctx : Ctx) (mk : ℤ × ℤ) {d d' : Cost} (h : d'.toReal ≤ d.toReal)
    (c : Coord) : rC ctx mk (some d') c ≤ rC ctx mk (some d) c := by
  unfold rC
  apply Finset.card_le_card
  intro v hv
  rw [Finset.mem_filter] at hv ⊢
  refine ⟨hv.1, ?_⟩
  have hv2 := hv.2
  rw [zcLt_iff] at hv2 ⊢
  rw [toR_toZ, Cost.toReal_add] at hv2 ⊢
  linarith

theorem rC_mono_opt (ctx : Ctx) (mk : ℤ × ℤ) {dv dv' : Option Cost}
    (h : ∀ d', dv' = some d' → (dv = none ∨ ∃ d, dv = some d ∧ d'.toReal ≤ d.toReal))
    (hnone : dv' = none → dv = none) (c : Coord) :
    rC ctx mk dv' c ≤ rC ctx mk dv c := by
  cases dv' with
  | none => rw [hnone rfl]
  | some d' =>
    rcases h d' rfl with hd | ⟨d, hd, hle⟩
    · rw [hd]
      exact rC_le_card ctx mk (some d') c
    · rw [hd]
      exact rC_mono_dist ctx mk hle c

/-- One relaxation never increases the potential against the popped key. -/
theorem phiR_relaxOne (ctx : Ctx) {c : Coord} {g : Cost} {mk : ℤ × ℤ}
    (hmk : toR mk = g.toReal + (ctx.hf c).toReal) (hW : WOK ctx)
    (st : SState) {dir : ℤ × ℤ} (hdir : dir ∈ directions) :
    phiR ctx mk (relaxOne ctx c g st dir) ≤ phiR ctx mk st := by
  rcases relaxOne_cases ctx c g st dir with heq | ⟨hok, hlt, heq⟩
  · rw [heq]
  · rw [heq]
    unfold phiR
    dsimp only
    rw [List.length_append, List.length_singleton]
    obtain ⟨v0, hv0mem, hv0⟩ := hW c dir hdir
    have hncells : stepTo c dir ∈ cells ctx.N := mem_cells.mpr hok.1
    have hkeyfact : toR ((g + moveCost dir) + ctx.hf (stepTo c dir)).toZ =
        toR mk + toR v0 := by
      rw [toR_toZ, Cost.toReal_add, Cost.toReal_add, hmk, hv0]
      ring
    have hS'eq : ∀ v,
        (zcLt (zcAdd mk v) ((g + moveCost dir) + ctx.hf (stepTo c dir)).toZ = true) ↔
          toR v < toR v0 := by
      intro v
      rw [zcLt_iff, toR_zcAdd, hkeyfact]
      constructor <;> intro <;> linarith
    have hv0notin : v0 ∉ WF.filter
        (fun v => zcLt (zcAdd mk v) ((g + moveCost dir) + ctx.hf (stepTo c dir)).toZ = true) := by
      rw [Finset.mem_filter]
      rintro ⟨_, hc⟩
      exact absurd ((hS'eq v0).mp hc) (lt_irrefl _)
    have hdec : rC ctx mk (some (g + moveCost dir)) (stepTo c dir) + 1 ≤
        rC ctx mk (st.dist (stepTo c dir)) (stepTo c dir) := by
      cases hdn : st.dist (stepTo c dir) with
      | none =>
        show (WF.filter _).card + 1 ≤ WF.card
        rw [← Finset.card_insert_of_not_mem hv0notin]
        apply Finset.card_le_card
        intro v hv
        rcases Finset.mem_insert.mp hv with rfl | hv'
        · exact hv0mem
        · exact Finset.filter_subset _ _ hv'
      | some dn =>
        rw [hdn] at hlt
        have hlt' := (ltOptB_some_iff _ _).mp hlt
        show (WF.filter _).card + 1 ≤ (WF.filter _).card
        rw [← Finset.card_insert_of_not_mem hv0notin]
        apply Finset.card_le_card
        intro v hv
        rw [Finset.mem_filter]
        rcases Finset.mem_insert.mp hv with rfl | hv'
        · refine ⟨hv0mem, ?_⟩
          rw [zcLt_iff, toR_zcAdd, toR_toZ, Cost.toReal_add]
          have h1 : toR mk + toR v = ((g + moveCost dir) + ctx.hf (stepTo c dir)).toReal := by
            rw [← toR_toZ (g + moveCost dir + ctx.hf (stepTo c dir)), hkeyfact]
          rw [Cost.toReal_add, Cost.toReal_add] at h1
          rw [Cost.toReal_add] at hlt'
          linarith
        · obtain ⟨hvWF, hvlt⟩ := Finset.mem_filter.mp hv'
          refine ⟨hvWF, ?_⟩
          have hvlt' := (hS'eq v).mp hvlt
          rw [zcLt_iff, toR_zcAdd, toR_toZ, Cost.toReal_add]
          have h1 : toR mk + toR v0 = ((g + moveCost dir) + ctx.hf (stepTo c dir)).toReal := by
            rw [← toR_toZ (g + moveCost dir + ctx.hf (stepTo c dir)), hkeyfact]
          rw [Cost.toReal_add, Cost.toReal_add] at h1
          rw [Cost.toReal_add] at hlt'
          linarith
    have hsplit_new := Finset.sum_erase_add (cells ctx.N)
      (fun x => rC ctx mk (if x = stepTo c dir then some (g + moveCost dir) else st.dist x) x)
      hncells
    have hsplit_old := Finset.sum_erase_add (cells ctx.N)
      (fun x => rC ctx mk (st.dist x) x) hncells
    have hsame : Finset.sum ((cells ctx.N).erase (stepTo c dir))
        (fun x => rC ctx mk (if x = stepTo c dir then some (g + moveCost dir) else st.dist x) x) =
        Finset.sum ((cells ctx.N).erase (stepTo c dir))
          (fun x => rC ctx mk (st.dist x) x) := by
      apply Finset.sum_congr rfl
      intro x hx
      rw [if_neg (Finset.mem_erase.mp hx).1]
    rw [← hsplit_new, ← hsplit_old, hsame]
    dsimp only
    rw [if_pos rfl]
    omega

theorem phiR_foldl (ctx : Ctx) {c : Coord} {g : Cost} {mk : ℤ × ℤ}
    (hmk : toR mk = g.toReal + (ctx.hf c).toReal) (hW : WOK ctx) :
    ∀ (dirs : List (ℤ × ℤ)) (st : SState), (∀ d ∈ dirs, d ∈ directions) →
      phiR ctx mk (List.foldl (relaxOne ctx c g) st dirs) ≤ phiR ctx mk st := by
  intro dirs
  induction dirs with
  | nil => intro st _; exact le_refl _
  | cons dir dirs ih =>
    intro st hsub
    rw [List.foldl_cons]
    exact le_trans (ih _ (fun d hd => hsub d (List.mem_cons_of_mem dir hd)))
      (phiR_relaxOne ctx hmk hW st (hsub dir (List.mem_cons_self dir dirs)))

/-- Entries after the neighbor loop: retained, or pushed with key at least
the popped key. -/
theorem foldl_pq_key (ctx : Ctx) {c : Coord} {g : Cost} {mk : ℤ × ℤ}
    (hmk : toR mk = g.toReal + (ctx.hf c).toReal) (hW : WOK ctx) :
    ∀ (dirs : List (ℤ × ℤ)) (st : SState), (∀ d ∈ dirs, d ∈ directions) →
      ∀ e ∈ (List.foldl (relaxOne ctx c g) st dirs).pq,
        e ∈ st.pq ∨ toR mk ≤ (key ctx e).toReal := by
  intro dirs
  induction dirs with
  | nil => intro st _ e he; exact Or.inl he
  | cons dir dirs ih =>
    intro st hsub e he
    rw [List.foldl_cons] at he
    rcases ih _ (fun d hd => hsub d (List.mem_cons_of_mem dir hd)) e he with he' | hk
    · rcases relaxOne_cases ctx c g st dir with heq | ⟨hok, hlt, heq⟩
      · rw [heq] at he'
        exact Or.inl he'
      · rw [heq] at he'
        dsimp only at he'
        rcases List.mem_append.mp he' with he'' | he''
        · exact Or.inl he''
        · have heq2 : e = (g + moveCost dir, stepTo c dir) := by simpa using he''
          subst heq2
          right
          obtain ⟨v0, hv0mem, hv0⟩ :=
            hW c dir (hsub dir (List.mem_cons_self dir dirs))
          have : (key ctx (g + moveCost dir, stepTo c dir)).toReal =
              toR mk + toR v0 := by
            show ((g + moveCost dir) + ctx.hf (stepTo c dir)).toReal = _
            rw [Cost.toReal_add, Cost.toReal_add, hmk, hv0]
            ring
          rw [this]
          have := WF_nonneg v0 hv0mem
          linarith
    · exact Or.inr hk

/-- The potential is antitone in the reference key. -/
theorem phiR_anti_ref (ctx : Ctx) {mk mk' : ℤ × ℤ} (h : toR mk ≤ toR mk')
    (st : SState) : phiR ctx mk' st ≤ phiR ctx mk st := by
  unfold phiR
  exact add_le_add_left
    (Finset.sum_le_sum (fun c _ => rC_anti_ref ctx h (st.dist c) c)) _

/-- Every non-terminal iteration strictly decreases the potential. -/
theorem phi_step_decrease (ctx : Ctx) (hW : WOK ctx) {st : SState}
    (hdone : st.done = false) (hne : st.pq ≠ [])
    (hdone' : (step ctx st).done = false) :
    phi ctx (step ctx st) < phi ctx st := by
  cases hsel : selMin ctx st.pq with
  | none => exact absurd (selMin_eq_none hsel) hne
  | some p =>
  obtain ⟨⟨g, c⟩, rest⟩ := p
  have hspec := selMin_spec ctx st.pq _ _ hsel
  have hlen : st.pq.length = rest.length + 1 := by
    have := hspec.1.length_eq
    simpa using this
  have hmin := hspec.2
  have hphist : phi ctx st = phiR ctx (key ctx (g, c)).toZ st := by
    unfold phi
    rw [hsel]
  have hpos : 1 ≤ phiR ctx (key ctx (g, c)).toZ st := by
    unfold phiR
    omega
  cases hstale : staleB g (st.dist c) with
  | true =>
    rw [step_stale hdone hsel hstale, hphist]
    show phi ctx { st with pq := rest } < _
    unfold phi
    cases hsel' : selMin ctx rest with
    | none => dsimp only; omega
    | some p' =>
      obtain ⟨m', rest'⟩ := p'
      dsimp only
      have hm'mem : m' ∈ rest := selMin_self_mem hsel'
      have hkle : (key ctx (g, c)).toReal ≤ (key ctx m').toReal :=
        hmin m' (selMin_rest_subset hsel m' hm'mem)
      have h1 : phiR ctx (key ctx m').toZ { st with pq := rest } ≤
          phiR ctx (key ctx (g, c)).toZ { st with pq := rest } :=
        phiR_anti_ref ctx (by rw [toR_toZ, toR_toZ]; exact hkle) _
      have h2 : phiR ctx (key ctx (g, c)).toZ { st with pq := rest } + 1 =
          phiR ctx (key ctx (g, c)).toZ st := by
        unfold phiR
        dsimp only
        omega
      omega
  | false =>
  by_cases hcend : c = ctx.endc
  · exfalso
    subst hcend
    rw [step_break hdone hsel hstale] at hdone'
    cases hdone'
  · have hmk : toR (key ctx (g, c)).toZ = g.toReal + (ctx.hf c).toReal := by
      rw [toR_toZ]
      show (g + ctx.hf c).toReal = _
      rw [Cost.toReal_add]
    rw [step_expand hdone hsel hstale hcend, hphist]
    set st1 : SState :=
      { st with
        pq := rest
        events :=
          if c = ctx.startc ∨ c = ctx.endc then st.events
          else st.events ++ [(c, Tag.visited)] } with hst1
    unfold phi
    cases hsel' : selMin ctx (expand ctx c g st1).pq with
    | none => dsimp only; omega
    | some p' =>
      obtain ⟨m', rest'⟩ := p'
      dsimp only
      have hm'mem : m' ∈ (expand ctx c g st1).pq := selMin_self_mem hsel'
      have hkle : toR (key ctx (g, c)).toZ ≤ toR (key ctx m').toZ := by
        rw [toR_toZ, toR_toZ]
        rcases foldl_pq_key ctx hmk hW directions st1 (fun d hd => hd) m' hm'mem with
          hm'' | hm''
        · exact hmin m' (selMin_rest_subset hsel m' hm'')
        · rw [← toR_toZ (key ctx (g, c))]
          exact hm''
      have h1 : phiR ctx (key ctx m').toZ (expand ctx c g st1) ≤
          phiR ctx (key ctx (g, c)).toZ (expand ctx c g st1) :=
        phiR_anti_ref ctx hkle _
      have h2 : phiR ctx (key ctx (g, c)).toZ (expand ctx c g st1) ≤
          phiR ctx (key ctx (g, c)).toZ st1 :=
        phiR_foldl ctx hmk hW directions st1 (fun d hd => hd)
      have h3 : phiR ctx (key ctx (g, c)).toZ st1 + 1 =
          phiR ctx (key ctx (g, c)).toZ st := by
        unfold phiR
        dsimp only
        omega
      omega

theorem step_fix (ctx : Ctx) {st : SState} (h : step ctx st = st) (k : ℕ) :
    (step ctx)^[k] st = st := by
  induction k with
  | zero => rfl
  | succ k ih => rw [Function.iterate_succ_apply, h, ih]

/-- With fuel exceeding the potential, the loop reaches a terminal state. -/
theorem loop_terminates (ctx : Ctx) (hW : WOK ctx) :
    ∀ (fuel : ℕ) (st : SState), st.done = false → phi ctx st < fuel →
      (((step ctx)^[fuel] st).done = true ∨ ((step ctx)^[fuel] st).pq = []) := by
  intro fuel
  induction fuel with
  | zero => intro st _ hphi; omega
  | succ fuel ih =>
    intro st hdone hphi
    by_cases hne : st.pq = []
    · right
      rw [step_fix ctx (step_empty hdone hne)]
      exact hne
    · rw [Function.iterate_succ_apply]
      cases hdone' : (step ctx st).done with
      | true =>
        left
        rw [iterate_done hdone']
        exact hdone'
      | false =>
        have := phi_step_decrease ctx hW hdone hne hdone'
        exact ih (step ctx st) hdone' (by omega)

/-- The potential is bounded by the frontier size plus six per cell. -/
theorem phi_le (ctx : Ctx) (st : SState) :
    phi ctx st ≤ st.pq.length + 6 * (ctx.N * ctx.N) := by
  unfold phi
  cases hsel : selMin ctx st.pq with
  | none => dsimp only; omega
  | some p =>
    obtain ⟨m, rest⟩ := p
    dsimp only
    unfold phiR
    have h1 : Finset.sum (cells ctx.N) (fun c => rC ctx (key ctx m).toZ (st.dist c) c) ≤
        (cells ctx.N).card * 6 := by
      refine le_trans (Finset.sum_le_card_nsmul _ _ 6 ?_) ?_
      · intro c _
        rw [← WF_card]
        exact rC_le_card ctx _ _ c
      · rw [smul_eq_mul]
    have h2 := card_cells ctx.N
    have : (cells ctx.N).card * 6 ≤ 6 * (ctx.N * ctx.N) := by
      omega
    omega

/-- The search loop always halts within the supplied fuel: the final state
has either broken at the goal or exhausted its frontier. -/
theorem finalState_terminal (ctx : Ctx) (hW : WOK ctx) :
    (finalState ctx).done = true ∨ (finalState ctx).pq = [] := by
  apply loop_terminates ctx hW (searchFuel ctx.N) (initState ctx) rfl
  have h1 := phi_le ctx (initState ctx)
  have h2 : (initState ctx).pq.length = 1 := rfl
  have h3 : 6 * ctx.N * ctx.N = 6 * (ctx.N * ctx.N) := by ring
  unfold searchFuel
  omega

/-! ## The two concrete heuristics satisfy the hypotheses -/

theorem toR_pair (a b : ℤ) : toR (a, b) = (a : ℝ) + (b : ℝ) * Real.sqrt 2 := rfl

theorem dijkstra_consistent (N : ℕ) (wall : Coord → Bool) (s e : Coord) :
    Consistent (dijkstraCtx N wall s e) := by
  intro c d _
  show (0 : Cost).toReal ≤ (edgeCost c d).toReal + (0 : Cost).toReal
  rw [Cost.toReal_zero]
  have := Cost.toReal_nonneg (edgeCost c d)
  linarith

theorem dijkstra_hf0 (N : ℕ) (wall : Coord → Bool) (s e : Coord) :
    (dijkstraCtx N wall s e).hf e = 0 := rfl

theorem dijkstra_WOK (N : ℕ) (wall : Coord → Bool) (s e : Coord) :
    WOK (dijkstraCtx N wall s e) := by
  intro c dir _
  show ∃ v ∈ WF, toR v = (moveCost dir).toReal + (0 : Cost).toReal - (0 : Cost).toReal
  rw [Cost.toReal_zero]
  unfold moveCost
  by_cases hd : dir.1 ≠ 0 ∧ dir.2 ≠ 0
  · refine ⟨(0, 1), by decide, ?_⟩
    rw [if_pos hd, diagonalCost_toReal, toR_pair]
    push_cast
    ring
  · refine ⟨(1, 0), by decide, ?_⟩
    rw [if_neg hd, cardinalCost_toReal, toR_pair]
    push_cast
    ring

/-- The Chebyshev bound as a natural number. -/
theorem cheb_toReal (e c : Coord) :
    (cheb e c).toReal = ((max (c.1 - e.1).natAbs (c.2 - e.2).natAbs : ℕ) : ℝ) := by
  rw [Cost.toReal_eq]
  show ((max (c.1 - e.1).natAbs (c.2 - e.2).natAbs : ℕ) : ℝ) + (0 : ℕ) * Real.sqrt 2 = _
  push_cast
  ring

/-- One move changes each coordinate by at most one. -/
theorem adjacent_abs_le {c n : Coord} (h : Adjacent c n) :
    (n.1 - c.1).natAbs ≤ 1 ∧ (n.2 - c.2).natAbs ≤ 1 := by
  unfold Adjacent directions at h
  simp only [List.mem_cons, List.not_mem_nil, or_false] at h
  rcases h with h | h | h | h | h | h | h | h <;>
    (rw [Prod.ext_iff] at h; obtain ⟨h1, h2⟩ := h; simp only at h1 h2; omega)

/-- The Chebyshev bound changes by at most one per move. -/
theorem cheb_adj {c n : Coord} (h : Adjacent c n) (e : Coord) :
    max (c.1 - e.1).natAbs (c.2 - e.2).natAbs ≤
        max (n.1 - e.1).natAbs (n.2 - e.2).natAbs + 1 ∧
      max (n.1 - e.1).natAbs (n.2 - e.2).natAbs ≤
        max (c.1 - e.1).natAbs (c.2 - e.2).natAbs + 1 := by
  obtain ⟨h1, h2⟩ := adjacent_abs_le h
  constructor
  · apply Nat.max_le.mpr
    constructor
    · refine le_trans (by omega : (c.1 - e.1).natAbs ≤ (n.1 - e.1).natAbs + 1) ?_
      exact add_le_add_right (le_max_left _ _) 1
    · refine le_trans (by omega : (c.2 - e.2).natAbs ≤ (n.2 - e.2).natAbs + 1) ?_
      exact add_le_add_right (le_max_right _ _) 1
  · apply Nat.max_le.mpr
    constructor
    · refine le_trans (by omega : (n.1 - e.1).natAbs ≤ (c.1 - e.1).natAbs + 1) ?_
      exact add_le_add_right (le_max_left _ _) 1
    · refine le_trans (by omega : (n.2 - e.2).natAbs ≤ (c.2 - e.2).natAbs + 1) ?_
      exact add_le_add_right (le_max_right _ _) 1

theorem astar_consistent (N : ℕ) (wall : Coord → Bool) (s e : Coord) :
    Consistent (astarCtx N wall s e) := by
  intro c d hadj
  show (cheb e c).toReal ≤ (edgeCost c d).toReal + (cheb e d).toReal
  rw [cheb_toReal, cheb_toReal]
  have hstep := (cheb_adj hadj e).1
  have hmove : 1 ≤ (edgeCost c d).toReal := one_le_moveCost _
  have hcast : ((max (c.1 - e.1).natAbs (c.2 - e.2).natAbs : ℕ) : ℝ) ≤
      ((max (d.1 - e.1).natAbs (d.2 - e.2).natAbs : ℕ) : ℝ) + 1 := by
    exact_mod_cast hstep
  linarith

theorem astar_hf0 (N : ℕ) (wall : Coord → Bool) (s e : Coord) :
    (astarCtx N wall s e).hf e = 0 := by
  show cheb e e = 0
  unfold cheb
  show Cost.mk _ _ = Cost.mk 0 0
  simp

theorem astar_WOK (N : ℕ) (wall : Coord → Bool) (s e : Coord) :
    WOK (astarCtx N wall s e) := by
  intro c dir hdir
  show ∃ v ∈ WF, toR v =
    (moveCost dir).toReal + (cheb e (stepTo c dir)).toReal - (cheb e c).toReal
  have hadj : Adjacent c (stepTo c dir) := adjacent_stepTo hdir c
  obtain ⟨hd1, hd2⟩ := cheb_adj hadj e
  set a := max (c.1 - e.1).natAbs (c.2 - e.2).natAbs with ha
  set b := max ((stepTo c dir).1 - e.1).natAbs ((stepTo c dir).2 - e.2).natAbs with hb
  rw [cheb_toReal, cheb_toReal, ← ha, ← hb]
  unfold moveCost
  by_cases hd : dir.1 ≠ 0 ∧ dir.2 ≠ 0
  · rw [if_pos hd, diagonalCost_toReal]
    refine ⟨((b : ℤ) - (a : ℤ), 1), ?_, ?_⟩
    · have : (b : ℤ) - (a : ℤ) = -1 ∨ (b : ℤ) - (a : ℤ) = 0 ∨ (b : ℤ) - (a : ℤ) = 1 := by
        omega
      rcases this with h | h | h <;> rw [h] <;> decide
    · rw [toR_pair]
      push_cast
      ring
  · rw [if_neg hd, cardinalCost_toReal]
    refine ⟨(1 + (b : ℤ) - (a : ℤ), 0), ?_, ?_⟩
    · have : 1 + (b : ℤ) - (a : ℤ) = 0 ∨ 1 + (b : ℤ) - (a : ℤ) = 1 ∨
          1 + (b : ℤ) - (a : ℤ) = 2 := by
        omega
      rcases this with h | h | h <;> rw [h] <;> decide
    · rw [toR_pair]
      push_cast
      ring

/-! ## Reconstruction follows the predecessor chain to Start -/

/-- Cells recorded strictly below a threshold. -/
def belowB (dv : Option Cost) (dt : Cost) : Bool :=
  match dv with
  | none => false
  | some dc => Cost.ltB dc dt

/-- Number of cells recorded strictly below a threshold. -/
def mu (N : ℕ) (st : SState) (dt : Cost) : ℕ :=
  ((cells N).filter (fun c => belowB (st.dist c) dt = true)).card

/-- Following a strictly decreasing predecessor link shrinks the measure. -/
theorem mu_lt {N : ℕ} {st : SState} {p : Coord} {dp dt : Cost}
    (hp : st.dist p = some dp) (hlt : dp.toReal < dt.toReal) (hpc : p ∈ cells N) :
    mu N st dp < mu N st dt := by
  unfold mu
  have hnotin : p ∉ (cells N).filter (fun c => belowB (st.dist c) dp = true) := by
    rw [Finset.mem_filter]
    rintro ⟨_, hc⟩
    rw [hp] at hc
    exact absurd ((Cost.ltB_iff dp dp).mp hc) (lt_irrefl _)
  have h1 : ((cells N).filter (fun c => belowB (st.dist c) dp = true)).card + 1 ≤
      ((cells N).filter (fun c => belowB (st.dist c) dt = true)).card := by
    rw [← Finset.card_insert_of_not_mem hnotin]
    apply Finset.card_le_card
    intro x hx
    rcases Finset.mem_insert.mp hx with rfl | hx'
    · rw [Finset.mem_filter, hp]
      exact ⟨hpc, (Cost.ltB_iff _ _).mpr hlt⟩
    · obtain ⟨hxc, hxb⟩ := Finset.mem_filter.mp hx'
      rw [Finset.mem_filter]
      refine ⟨hxc, ?_⟩
      cases hdx : st.dist x with
      | none => rw [hdx] at hxb; cases hxb
      | some dx =>
        rw [hdx] at hxb
        have hxb' : Cost.ltB dx dp = true := hxb
        show Cost.ltB dx dt = true
        rw [Cost.ltB_iff] at hxb' ⊢
        linarith
  omega

theorem reconAux_base (pv : Coord → Option Coord) (startc : Coord) (fuel : ℕ)
    (t : Coord) (acc : List Coord) (h : t = startc) :
    reconAux pv startc fuel t acc = some ((acc ++ [t]).reverse) := by
  cases fuel <;> (unfold reconAux; rw [if_pos h])

theorem reconAux_succ (pv : Coord → Option Coord) (startc : Coord) (fuel : ℕ)
    (t : Coord) (acc : List Coord) (p : Coord) (h : ¬t = startc)
    (hp : pv t = some p) :
    reconAux pv startc (fuel + 1) t acc = reconAux pv startc fuel p (acc ++ [t]) := by
  conv_lhs => unfold reconAux
  rw [if_neg h]
  show (match pv t with
    | none => none
    | some p => reconAux pv startc fuel p (acc ++ [t])) = _
  rw [hp]

/-- The reconstruction walk succeeds within the measure bound and returns the
collected chain (goal first), reversed into a Start-to-goal path. -/
theorem reconAux_spec (ctx : Ctx) {st : SState} (hpv : prevInv ctx st) :
    ∀ (fuel : ℕ) (t : Coord) (dt : Cost) (acc : List Coord),
      st.dist t = some dt → mu ctx.N st dt < fuel →
      ∃ chainL : List Coord,
        reconAux st.prev ctx.startc fuel t acc = some ((acc ++ chainL).reverse) ∧
        chainL ≠ [] ∧ chainL.head? = some t ∧ chainL.getLast? = some ctx.startc ∧
        List.Chain' Adjacent chainL.reverse ∧
        (∀ c ∈ chainL, okCell ctx.N ctx.wall c) ∧
        chainL.length ≤ mu ctx.N st dt + 1 ∧
        (pathCost chainL.reverse).toReal ≤ dt.toReal := by
  intro fuel
  induction fuel with
  | zero => intro t dt acc _ hmu; omega
  | succ fuel ih =>
    intro t dt acc ht hmu
    by_cases hts : t = ctx.startc
    · refine ⟨[t], ?_, by simp, by simp, by simp [hts], by simp, ?_, by simp, ?_⟩
      · exact reconAux_base st.prev ctx.startc (fuel + 1) t acc hts
      · intro c hc
        have hct : c = t := by simpa using hc
        rw [hct]
        exact (hpv t dt ht).1
      · rw [show ([t] : List Coord).reverse = [t] from rfl, pathCost_single,
          Cost.toReal_zero]
        exact Cost.toReal_nonneg dt
    · obtain ⟨p, dp, hprev, hadj, hdp, hcost⟩ := (hpv t dt ht).2 hts
      have hedge : 1 ≤ (edgeCost p t).toReal := one_le_moveCost _
      have hlt : dp.toReal < dt.toReal := by linarith
      have hpc : p ∈ cells ctx.N := mem_cells.mpr (hpv p dp hdp).1.1
      have hmu' : mu ctx.N st dp < fuel := by
        have := mu_lt hdp hlt hpc
        omega
      obtain ⟨chainL', hrec, hne', hhead', hlast', hchain', hok', hlen', hcost'⟩ :=
        ih p dp (acc ++ [t]) hdp hmu'
      refine ⟨t :: chainL', ?_, by simp, by simp, ?_, ?_, ?_, ?_, ?_⟩
      · rw [reconAux_succ st.prev ctx.startc fuel t acc p hts hprev, hrec]
        congr 1
        rw [List.append_assoc]
        rfl
      · cases chainL' with
        | nil => exact absurd rfl hne'
        | cons c0 cl => rw [List.getLast?_cons_cons]; exact hlast'
      · rw [List.reverse_cons]
        rw [List.chain'_append]
        refine ⟨hchain', List.chain'_singleton t, ?_⟩
        intro x hx y hy
        rw [List.getLast?_reverse, hhead'] at hx
        injection hx with hx'
        subst hx'
        have hyt : t = y := by simpa using hy
        rw [← hyt]
        exact hadj
      · intro c hc
        rcases List.mem_cons.mp hc with rfl | hc'
        · exact (hpv c dt ht).1
        · exact hok' c hc'
      · have := mu_lt hdp hlt hpc
        simp only [List.length_cons]
        omega
      · rw [List.reverse_cons]
        have hlastrev : chainL'.reverse.getLast? = some p := by
          rw [List.getLast?_reverse]
          exact hhead'
        rw [pathCost_append_last chainL'.reverse p t hlastrev, Cost.toReal_add]
        linarith

/-- Starting at the goal, the chain stays inside the measure bound. -/
theorem mu_end_lt (ctx : Ctx) {st : SState} {d : Cost}
    (hend : st.dist ctx.endc = some d) (hok : inBounds ctx.N ctx.endc) :
    mu ctx.N st d < ctx.N * ctx.N := by
  have hec : ctx.endc ∈ cells ctx.N := mem_cells.mpr hok
  have hsub : (cells ctx.N).filter (fun c => belowB (st.dist c) d = true) ⊆
      (cells ctx.N).erase ctx.endc := by
    intro x hx
    obtain ⟨hxc, hxb⟩ := Finset.mem_filter.mp hx
    rw [Finset.mem_erase]
    refine ⟨?_, hxc⟩
    intro hxe
    rw [hxe, hend] at hxb
    exact absurd ((Cost.ltB_iff d d).mp hxb) (lt_irrefl _)
  have h1 : mu ctx.N st d ≤ ((cells ctx.N).erase ctx.endc).card :=
    Finset.card_le_card hsub
  rw [Finset.card_erase_of_mem hec] at h1
  have h2 := card_cells ctx.N
  have h3 : 1 ≤ (cells ctx.N).card := Finset.card_pos.mpr ⟨ctx.endc, hec⟩
  omega

/-- With a finite recorded cost at End, reconstruction returns a valid path
from Start to End of length at most `N * N` and cost at most the recorded
cost. -/
theorem reconPath_spec (ctx : Ctx) {st : SState} (hpv : prevInv ctx st) {d : Cost}
    (hend : st.dist ctx.endc = some d) :
    ∃ p, reconPath ctx st = some p ∧
      PathFrom ctx.N ctx.wall ctx.startc ctx.endc p ∧
      p.length ≤ ctx.N * ctx.N ∧ (pathCost p).toReal ≤ d.toReal := by
  have hokend : inBounds ctx.N ctx.endc := (hpv ctx.endc d hend).1.1
  obtain ⟨chainL, hrec, hne, hhead, hlast, hchain, hok, hlen, hcost⟩ :=
    reconAux_spec ctx hpv (ctx.N * ctx.N) ctx.endc d [] hend (mu_end_lt ctx hend hokend)
  refine ⟨chainL.reverse, ?_, ⟨⟨?_, ?_, hchain⟩, ?_, ?_⟩, ?_, hcost⟩
  · unfold reconPath
    rw [hrec]
    rw [List.nil_append]
  · intro hc
    exact hne (by simpa using hc)
  · intro c hc
    exact hok c (List.mem_reverse.mp hc)
  · rw [List.head?_reverse]
    exact hlast
  · rw [List.getLast?_reverse]
    exact hhead
  · rw [List.length_reverse]
    have := mu_end_lt ctx hend hokend
    omega

/-! ## The emitted event sequence: append-only, tag discipline -/

theorem relaxOne_events_append (ctx : Ctx) (c : Coord) (g : Cost) (st : SState)
    (dir : ℤ × ℤ) :
    ∃ tl, (relaxOne ctx c g st dir).events = st.events ++ tl ∧
      ∀ ev ∈ tl, ev.2 = Tag.frontier ∧ ev.1 ≠ ctx.startc ∧ ev.1 ≠ ctx.endc := by
  rcases relaxOne_cases ctx c g st dir with heq | ⟨hok, hlt, heq⟩
  · exact ⟨[], by rw [heq, List.append_nil], by intro ignoreMe h; cases h⟩
  · rw [heq]
    by_cases hg : stepTo c dir = ctx.startc ∨ stepTo c dir = ctx.endc
    · exact ⟨[], by dsimp only; rw [if_pos hg, List.append_nil], by intro ignoreMe h; cases h⟩
    · push_neg at hg
      refine ⟨[(stepTo c dir, Tag.frontier)], ?_, ?_⟩
      · dsimp only
        rw [if_neg (not_or.mpr ⟨hg.1, hg.2⟩)]
      · intro ev hev
        have : ev = (stepTo c dir, Tag.frontier) := by simpa using hev
        subst this
        exact ⟨rfl, hg.1, hg.2⟩

theorem foldl_events_append (ctx : Ctx) (c : Coord) (g : Cost) :
    ∀ (dirs : List (ℤ × ℤ)) (st : SState),
      ∃ tl, (List.foldl (relaxOne ctx c g) st dirs).events = st.events ++ tl ∧
        ∀ ev ∈ tl, ev.2 = Tag.frontier ∧ ev.1 ≠ ctx.startc ∧ ev.1 ≠ ctx.endc := by
  intro dirs
  induction dirs with
  | nil =>
    intro st
    exact ⟨[], by rw [List.foldl_nil, List.append_nil], by intro ignoreMe h; cases h⟩
  | cons dir dirs ih =>
    intro st
    rw [List.foldl_cons]
    obtain ⟨tl1, h1, htl1⟩ := relaxOne_events_append ctx c g st dir
    obtain ⟨tl2, h2, htl2⟩ := ih (relaxOne ctx c g st dir)
    refine ⟨tl1 ++ tl2, ?_, ?_⟩
    · rw [h2, h1, List.append_assoc]
    · intro ev hev
      rcases List.mem_append.mp hev with h | h
      · exact htl1 ev h
      · exact htl2 ev h

/-- One loop iteration appends zero or more events, each a guarded grey or
cyan step avoiding Start and End. -/
theorem step_events_append (ctx : Ctx) (st : SState) :
    ∃ tl, (step ctx st).events = st.events ++ tl ∧
      ∀ ev ∈ tl, (ev.2 = Tag.frontier ∨ ev.2 = Tag.visited) ∧
        ev.1 ≠ ctx.startc ∧ ev.1 ≠ ctx.endc := by
  cases hdone : st.done with
  | true => exact ⟨[], by rw [step_done hdone, List.append_nil], by intro ignoreMe h; cases h⟩
  | false =>
  cases hsel : selMin ctx st.pq with
  | none =>
    exact ⟨[], by rw [step_empty hdone (selMin_eq_none hsel), List.append_nil],
      by intro ignoreMe h; cases h⟩
  | some p =>
  obtain ⟨⟨g, c⟩, rest⟩ := p
  cases hstale : staleB g (st.dist c) with
  | true =>
    exact ⟨[], by rw [step_stale hdone hsel hstale, List.append_nil],
      by intro ignoreMe h; cases h⟩
  | false =>
  by_cases hcend : c = ctx.endc
  · subst hcend
    exact ⟨[], by rw [step_break hdone hsel hstale, List.append_nil],
      by intro ignoreMe h; cases h⟩
  · rw [step_expand hdone hsel hstale hcend]
    obtain ⟨tl2, h2, htl2⟩ := foldl_events_append ctx c g
      directions
      { st with
        pq := rest
        events :=
          if c = ctx.startc ∨ c = ctx.endc then st.events
          else st.events ++ [(c, Tag.visited)] }
    by_cases hg : c = ctx.startc ∨ c = ctx.endc
    · refine ⟨tl2, ?_, ?_⟩
      · rw [show (expand ctx c g _).events = _ from h2]
        rw [if_pos hg]
      · intro ev hev
        obtain ⟨htag, h1, h2'⟩ := htl2 ev hev
        exact ⟨Or.inl htag, h1, h2'⟩
    · push_neg at hg
      refine ⟨(c, Tag.visited) :: tl2, ?_, ?_⟩
      · rw [show (expand ctx c g _).events = _ from h2]
        rw [if_neg (by push_neg; exact hg)]
        rw [List.append_assoc]
        rfl
      · intro ev hev
        rcases List.mem_cons.mp hev with rfl | hev'
        · exact ⟨Or.inr rfl, hg.1, hg.2⟩
        · obtain ⟨htag, ha, hb⟩ := htl2 ev hev'
          exact ⟨Or.inl htag, ha, hb⟩

/-- Event lists grow monotonically along the run. -/
theorem iterate_events_append (ctx : Ctx) (st : SState) (k : ℕ) :
    ∃ tl, ((step ctx)^[k + 1] st).events = ((step ctx)^[k] st).events ++ tl := by
  rw [Function.iterate_succ_apply']
  obtain ⟨tl, htl, _⟩ := step_events_append ctx ((step ctx)^[k] st)
  exact ⟨tl, htl⟩

/-- No event of the search loop is a path event. -/
theorem iterate_events_tags (ctx : Ctx) (k : ℕ) :
    ∀ ev ∈ ((step ctx)^[k] (initState ctx)).events,
      ev.2 = Tag.frontier ∨ ev.2 = Tag.visited := by
  induction k with
  | zero =>
    intro ev hev
    have : ev = (ctx.startc, Tag.frontier) := by simpa [initState] using hev
    subst this
    exact Or.inl rfl
  | succ k ih =>
    intro ev hev
    rw [Function.iterate_succ_apply'] at hev
    obtain ⟨tl, htl, htags⟩ := step_events_append ctx ((step ctx)^[k] (initState ctx))
    rw [htl] at hev
    rcases List.mem_append.mp hev with h | h
    · exact ih ev h
    · exact (htags ev h).1

/-! ## Outcome of a full run -/

/-- When a valid path exists, a run returns a found path that is itself a
valid Start-to-End path of optimal cost, equal to the recorded cost at End. -/
theorem runSearch_found (ctx : Ctx) (hcons : Consistent ctx)
    (hf0 : ctx.hf ctx.endc = 0) (hW : WOK ctx)
    {q0 : List Coord} (hq0 : PathFrom ctx.N ctx.wall ctx.startc ctx.endc q0) :
    ∃ p d, (runSearch ctx).1 = SearchResult.found p ∧
      (finalState ctx).dist ctx.endc = some d ∧
      PathFrom ctx.N ctx.wall ctx.startc ctx.endc p ∧
      p.length ≤ ctx.N * ctx.N ∧
      pathCost p = d ∧
      ∀ q, PathFrom ctx.N ctx.wall ctx.startc ctx.endc q →
        d.toReal ≤ (pathCost q).toReal := by
  have hs : okCell ctx.N ctx.wall ctx.startc := by
    obtain ⟨⟨hne, hcells, _⟩, hhead, _⟩ := hq0
    cases q0 with
    | nil => cases hhead
    | cons a tl =>
      have : a = ctx.startc := by simpa using hhead
      subst this
      exact hcells _ (List.mem_cons_self _ _)
  have hInv := inv_finalState ctx hs
  have hterm := finalState_terminal ctx hW
  have hopt : OptimalAt ctx (finalState ctx) :=
    loop_optimal ctx hcons hf0 (searchFuel ctx.N) (initState ctx)
      (inv_initState ctx hs) rfl hterm
  obtain ⟨d, hd, hdle⟩ := hopt q0 hq0
  obtain ⟨p, hrp, hpf, hlen, hcostle⟩ := reconPath_spec ctx hInv.pv hd
  have hdlep : d.toReal ≤ (pathCost p).toReal := by
    obtain ⟨d', hd', hle'⟩ := hopt p hpf
    rw [hd] at hd'
    injection hd' with hd''
    rw [hd'']
    exact hle'
  have hclose : pathCost p = d := Cost.toReal_inj (le_antisymm hcostle hdlep)
  refine ⟨p, d, ?_, hd, hpf, hlen, hclose, ?_⟩
  · simp only [runSearch]
    rw [hd]
    dsimp only
    rw [hrp]
  · intro q hq
    obtain ⟨d', hd', hle'⟩ := hopt q hq
    rw [hd] at hd'
    injection hd' with hd''
    rw [hd'']
    exact hle'

/-- A run reports Found exactly when the recorded cost at End is finite. -/
theorem runSearch_found_iff (ctx : Ctx) (hs : okCell ctx.N ctx.wall ctx.startc) :
    (∃ p, (runSearch ctx).1 = SearchResult.found p) ↔
      (finalState ctx).dist ctx.endc ≠ none := by
  have hInv := inv_finalState ctx hs
  constructor
  · rintro ⟨p, hp⟩ hnone
    simp only [runSearch] at hp
    rw [hnone] at hp
    dsimp only at hp
    cases hp
  · intro hne
    cases hd : (finalState ctx).dist ctx.endc with
    | none => exact absurd hd hne
    | some d =>
      obtain ⟨p, hrp, _, _, _⟩ := reconPath_spec ctx hInv.pv hd
      refine ⟨p, ?_⟩
      simp only [runSearch]
      rw [hd]
      dsimp only
      rw [hrp]

theorem runSearch_notFound_events (ctx : Ctx)
    (hd : (finalState ctx).dist ctx.endc = none) :
    (runSearch ctx).1 = SearchResult.notFound ∧
      (runSearch ctx).2 = (finalState ctx).events := by
  constructor <;> (simp only [runSearch]; rw [hd])

theorem directions_neg : ∀ dir ∈ directions, ((-dir.1, -dir.2) : ℤ × ℤ) ∈ directions := by
  decide

theorem adjacent_symm {c d : Coord} (h : Adjacent c d) : Adjacent d c := by
  have h' := directions_neg _ h
  show (c.1 - d.1, c.2 - d.2) ∈ directions
  have heq : ((c.1 - d.1, c.2 - d.2) : ℤ × ℤ) = (-(d.1 - c.1), -(d.2 - c.2)) := by
    rw [Prod.mk.injEq]
    constructor <;> ring
  rw [heq]
  exact h'

/-- When every traversable-bounds neighbor of End is blocked, no relaxation
can ever target End. -/
theorem foldl_dist_endc (ctx : Ctx) {c : Coord} {g : Cost}
    (hokc : okCell ctx.N ctx.wall c)
    (hencl : ∀ x, Adjacent x ctx.endc → inBounds ctx.N x → ctx.wall x = true) :
    ∀ (dirs : List (ℤ × ℤ)) (st : SState), (∀ d ∈ dirs, d ∈ directions) →
      (List.foldl (relaxOne ctx c g) st dirs).dist ctx.endc = st.dist ctx.endc := by
  intro dirs
  induction dirs with
  | nil => intro st _; rfl
  | cons dir dirs ih =>
    intro st hsub
    rw [List.foldl_cons]
    rw [ih _ (fun d hd => hsub d (List.mem_cons_of_mem dir hd))]
    by_cases htar : stepTo c dir = ctx.endc
    · exfalso
      have hadj : Adjacent c ctx.endc := by
        rw [← htar]
        exact adjacent_stepTo (hsub dir (List.mem_cons_self dir dirs)) c
      have := hencl c hadj hokc.1
      rw [hokc.2] at this
      cases this
    · exact relaxOne_dist_ne ctx c g st dir (fun hc => htar hc.symm)

/-- With End fully enclosed by walls, its recorded cost stays infinite
throughout the search. -/
theorem enclosed_none (ctx : Ctx) (hs : okCell ctx.N ctx.wall ctx.startc)
    (hne : ctx.startc ≠ ctx.endc)
    (hencl : ∀ x, Adjacent x ctx.endc → inBounds ctx.N x → ctx.wall x = true) :
    ∀ k, ((step ctx)^[k] (initState ctx)).dist ctx.endc = none := by
  intro k
  induction k with
  | zero =>
    show (if ctx.endc = ctx.startc then some 0 else none) = none
    rw [if_neg (fun hc => hne hc.symm)]
  | succ k ih =>
    rw [Function.iterate_succ_apply']
    set st := (step ctx)^[k] (initState ctx) with hstdef
    have hInv : Inv ctx st := inv_iterate ctx (inv_initState ctx hs) k
    cases hdone : st.done with
    | true => rw [step_done hdone]; exact ih
    | false =>
    cases hsel : selMin ctx st.pq with
    | none => rw [step_empty hdone (selMin_eq_none hsel)]; exact ih
    | some p =>
    obtain ⟨⟨g, c⟩, rest⟩ := p
    cases hstale : staleB g (st.dist c) with
    | true => rw [step_stale hdone hsel hstale]; exact ih
    | false =>
    by_cases hcend : c = ctx.endc
    · exfalso
      obtain ⟨dc, hdc, _⟩ := hInv.qok (g, c) (selMin_self_mem hsel)
      rw [hcend] at hdc
      rw [hdc] at ih
      cases ih
    · rw [step_expand hdone hsel hstale hcend]
      obtain ⟨dc, hdc, _⟩ := hInv.qok (g, c) (selMin_self_mem hsel)
      have hokc : okCell ctx.N ctx.wall c := (hInv.pv c dc hdc).1
      unfold expand
      rw [foldl_dist_endc ctx hokc hencl directions _ (fun d hd => hd)]
      exact ih

/-! ## The wall-toggle handler never blocks Start or End -/

theorem clickToggle_anchor (w : Coord → Bool) (m : ℤ × ℤ) {a : Coord}
    (ha : a = (0, 0) ∨ a = (19, 19)) (h : w a = false) :
    clickToggle (0, 0) (19, 19) w m a = false := by
  unfold clickToggle
  split
  · set col := m.1 / (CELL_SIZE : ℤ) with hcol
    set row := m.2 / (CELL_SIZE : ℤ) with hrow
    by_cases hg : (col = ((0, 0) : Coord).1 ∧ row = ((0, 0) : Coord).2) ∨
        (col = ((19, 19) : Coord).1 ∧ row = ((19, 19) : Coord).2)
    · rw [if_pos hg]
      exact h
    · rw [if_neg hg]
      by_cases hac : a = (col, row)
      · exfalso
        apply hg
        rcases ha with rfl | rfl
        · left
          rw [Prod.ext_iff] at hac
          exact ⟨hac.1.symm, hac.2.symm⟩
        · right
          rw [Prod.ext_iff] at hac
          exact ⟨hac.1.symm, hac.2.symm⟩
      · rw [if_neg hac]
        exact h
  · exact h

theorem wallAfterClicks_anchor (clicks : List (ℤ × ℤ)) :
    wallAfterClicks clicks (0, 0) = false ∧ wallAfterClicks clicks (19, 19) = false := by
  unfold wallAfterClicks
  suffices h : ∀ (w : Coord → Bool), w (0, 0) = false → w (19, 19) = false →
      List.foldl (clickToggle (0, 0) (19, 19)) w clicks (0, 0) = false ∧
      List.foldl (clickToggle (0, 0) (19, 19)) w clicks (19, 19) = false by
    exact h _ rfl rfl
  induction clicks with
  | nil => intro w h1 h2; exact ⟨h1, h2⟩
  | cons m clicks ih =>
    intro w h1 h2
    rw [List.foldl_cons]
    exact ih _ (clickToggle_anchor w m (Or.inl rfl) h1)
      (clickToggle_anchor w m (Or.inr rfl) h2)

/-! ## The events surfaced by a full run -/

/-- The path-event loop only appends guarded path-colored events, at most one
per path cell. -/
theorem pathEvents_append (ctx : Ctx) (p : List Coord) (evs : List Event) :
    ∃ tl, pathEvents ctx p evs = evs ++ tl ∧ tl.length ≤ p.length ∧
      ∀ ev ∈ tl, ev.2 = Tag.pathMember ∧ ev.1 ≠ ctx.startc ∧ ev.1 ≠ ctx.endc := by
  unfold pathEvents
  induction p generalizing evs with
  | nil =>
    refine ⟨[], ?_, le_refl _, ?_⟩
    · simp
    · intro ev hev
      exact absurd hev (List.not_mem_nil ev)
  | cons q p ih =>
    rw [List.foldl_cons]
    by_cases hg : q = ctx.startc ∨ q = ctx.endc
    · rw [if_pos hg]
      obtain ⟨tl, htl, hlen, hmem⟩ := ih evs
      refine ⟨tl, htl, ?_, hmem⟩
      rw [List.length_cons]
      omega
    · rw [if_neg hg]
      push_neg at hg
      obtain ⟨tl, htl, hlen, hmem⟩ := ih (evs ++ [(q, Tag.pathMember)])
      refine ⟨(q, Tag.pathMember) :: tl, ?_, ?_, ?_⟩
      · rw [htl, List.append_assoc, List.singleton_append]
      · rw [List.length_cons, List.length_cons]
        omega
      · intro ev hev
        rcases List.mem_cons.mp hev with rfl | h
        · exact ⟨rfl, hg.1, hg.2⟩
        · exact hmem ev h

/-- Every full run's event list begins with the unguarded Start frontier
event, and every later event avoids Start and End. -/
theorem runSearch_events_anchor (ctx : Ctx) (hs : okCell ctx.N ctx.wall ctx.startc) :
    (runSearch ctx).2.head? = some (ctx.startc, Tag.frontier) ∧
    ∀ ev ∈ (runSearch ctx).2.tail, ev.1 ≠ ctx.startc ∧ ev.1 ≠ ctx.endc := by
  obtain ⟨hh, ht⟩ := (inv_finalState ctx hs).ev
  have hmain : ∀ tl : List Event,
      (∀ ev ∈ tl, ev.1 ≠ ctx.startc ∧ ev.1 ≠ ctx.endc) →
      ((finalState ctx).events ++ tl).head? = some (ctx.startc, Tag.frontier) ∧
      ∀ ev ∈ ((finalState ctx).events ++ tl).tail,
        ev.1 ≠ ctx.startc ∧ ev.1 ≠ ctx.endc := by
    intro tl htlmem
    cases hevs : (finalState ctx).events with
    | nil => rw [hevs] at hh; cases hh
    | cons e0 evtl =>
      rw [hevs] at hh ht
      rw [List.head?_cons] at hh
      rw [List.cons_append]
      refine ⟨?_, ?_⟩
      · rw [List.head?_cons]
        exact hh
      · rw [List.tail_cons]
        intro ev hev
        rcases List.mem_append.mp hev with h | h
        · exact ht ev h
        · exact htlmem ev h
  cases hd : (finalState ctx).dist ctx.endc with
  | none =>
    rw [(runSearch_notFound_events ctx hd).2]
    have := hmain [] (fun ev hev => absurd hev (List.not_mem_nil ev))
    rw [List.append_nil] at this
    exact this
  | some d =>
    cases hrp : reconPath ctx (finalState ctx) with
    | none =>
      have hre : (runSearch ctx).2 = (finalState ctx).events := by
        simp only [runSearch]
        rw [hd]
        dsimp only
        rw [hrp]
      rw [hre]
      have := hmain [] (fun ev hev => absurd hev (List.not_mem_nil ev))
      rw [List.append_nil] at this
      exact this
    | some p =>
      obtain ⟨tl, htl, _, hmem⟩ := pathEvents_append ctx p (finalState ctx).events
      have hre : (runSearch ctx).2 = (finalState ctx).events ++ tl := by
        simp only [runSearch]
        rw [hd]
        dsimp only
        rw [hrp]
        dsimp only
        exact htl
      rw [hre]
      exact hmain tl (fun ev hev => ⟨(hmem ev hev).2.1, (hmem ev hev).2.2⟩)

/-! ## The claims -/

/-- Claim C2 is refuted by the code: lines 201 and 312 push an animation step
for the Start cell before the loop, without the guard later pushes have, so
the very first emitted event of a run on the program's actual grid (N = 20,
Start (0,0), End (19,19), no walls) references Start. -/
theorem C2_counterexample :
    ∃ ev ∈ (dijkstraRun GRID_SIZE (fun _ => false) (0, 0) (19, 19)).2,
      ev.1 = ((0, 0) : Coord) := by
  have hh : (dijkstraRun GRID_SIZE (fun _ => false) (0, 0) (19, 19)).2.head? =
      some (((0, 0) : Coord), Tag.frontier) :=
    (runSearch_events_anchor (dijkstraCtx GRID_SIZE (fun _ => false) (0, 0) (19, 19))
      (by decide)).1
  refine ⟨((0, 0), Tag.frontier), ?_, rfl⟩
  exact List.mem_of_mem_head? (Option.mem_def.mpr hh)

/-- Claim C2 (amended): the initial unguarded push of Start (lines 201 and
312) emits one frontier event referencing Start as the first event of either
strategy's trace; every subsequent event avoids both Start and End, so End
never appears and Start appears exactly at the head. -/
theorem C2_trace_anchor (N : ℕ) (wall : Coord → Bool) (s e : Coord)
    (hs : okCell N wall s) :
    ((dijkstraRun N wall s e).2.head? = some (s, Tag.frontier) ∧
      ∀ ev ∈ (dijkstraRun N wall s e).2.tail, ev.1 ≠ s ∧ ev.1 ≠ e) ∧
    ((astarRun N wall s e).2.head? = some (s, Tag.frontier) ∧
      ∀ ev ∈ (astarRun N wall s e).2.tail, ev.1 ≠ s ∧ ev.1 ≠ e) :=
  ⟨runSearch_events_anchor (dijkstraCtx N wall s e) hs,
   runSearch_events_anchor (astarCtx N wall s e) hs⟩

/-- Witness for Claim C2 on the program's actual grid. -/
theorem C2_witness :
    ((dijkstraRun GRID_SIZE (fun _ => false) (0, 0) (19, 19)).2.head? =
        some (((0, 0) : Coord), Tag.frontier) ∧
      ∀ ev ∈ (dijkstraRun GRID_SIZE (fun _ => false) (0, 0) (19, 19)).2.tail,
        ev.1 ≠ ((0, 0) : Coord) ∧ ev.1 ≠ ((19, 19) : Coord)) ∧
    ((astarRun GRID_SIZE (fun _ => false) (0, 0) (19, 19)).2.head? =
        some (((0, 0) : Coord), Tag.frontier) ∧
      ∀ ev ∈ (astarRun GRID_SIZE (fun _ => false) (0, 0) (19, 19)).2.tail,
        ev.1 ≠ ((0, 0) : Coord) ∧ ev.1 ≠ ((19, 19) : Coord)) :=
  C2_trace_anchor GRID_SIZE (fun _ => false) (0, 0) (19, 19) (by decide)

/-- Claim C3: at termination of either search the result is Found exactly
when the recorded cost at End is finite (the FLT_MAX sentinel is modelled by
`none`), and with End fully enclosed by walls both strategies return
NotFound and emit zero path-colored events. -/
theorem C3_found_iff (N : ℕ) (wall : Coord → Bool) (s e : Coord)
    (hs : okCell N wall s) :
    ((∃ p, (dijkstraRun N wall s e).1 = SearchResult.found p) ↔
      (finalState (dijkstraCtx N wall s e)).dist e ≠ none) ∧
    ((∃ p, (astarRun N wall s e).1 = SearchResult.found p) ↔
      (finalState (astarCtx N wall s e)).dist e ≠ none) ∧
    (s ≠ e → (∀ x, Adjacent x e → inBounds N x → wall x = true) →
      (dijkstraRun N wall s e).1 = SearchResult.notFound ∧
      (astarRun N wall s e).1 = SearchResult.notFound ∧
      (∀ ev ∈ (dijkstraRun N wall s e).2, ev.2 ≠ Tag.pathMember) ∧
      (∀ ev ∈ (astarRun N wall s e).2, ev.2 ≠ Tag.pathMember)) := by
  refine ⟨runSearch_found_iff (dijkstraCtx N wall s e) hs,
    runSearch_found_iff (astarCtx N wall s e) hs, ?_⟩
  intro hne hencl
  have hd1 : (finalState (dijkstraCtx N wall s e)).dist e = none :=
    enclosed_none (dijkstraCtx N wall s e) hs hne hencl (searchFuel N)
  have hd2 : (finalState (astarCtx N wall s e)).dist e = none :=
    enclosed_none (astarCtx N wall s e) hs hne hencl (searchFuel N)
  obtain ⟨hr1, he1⟩ := runSearch_notFound_events (dijkstraCtx N wall s e) hd1
  obtain ⟨hr2, he2⟩ := runSearch_notFound_events (astarCtx N wall s e) hd2
  refine ⟨hr1, hr2, ?_, ?_⟩
  · intro ev hev
    have hev' : ev ∈ (finalState (dijkstraCtx N wall s e)).events := by
      rw [← he1]
      exact hev
    rcases iterate_events_tags (dijkstraCtx N wall s e) (searchFuel N) ev hev' with h | h <;>
      (rw [h]; decide)
  · intro ev hev
    have hev' : ev ∈ (finalState (astarCtx N wall s e)).events := by
      rw [← he2]
      exact hev
    rcases iterate_events_tags (astarCtx N wall s e) (searchFuel N) ev hev' with h | h <;>
      (rw [h]; decide)

/-- Witness for Claim C3. -/
theorem C3_witness :
    (∃ p, (dijkstraRun 3 (fun _ => false) (0, 0) (2, 2)).1 = SearchResult.found p) ↔
      (finalState (dijkstraCtx 3 (fun _ => false) (0, 0) (2, 2))).dist (2, 2) ≠ none :=
  (C3_found_iff 3 (fun _ => false) (0, 0) (2, 2) (by decide)).1

/-- Claim C4: with a finite recorded cost at End, the reconstruction walk
follows predecessor links starting at End, collects the visited cells,
reverses them, and yields an ordered Start-to-End path of at most N*N cells
of cost at most the recorded cost; the chain provably reaches Start within
the N*N fuel, so the defensive failure outcome is never taken here. -/
theorem C4_reconstruction (ctx : Ctx) (hs : okCell ctx.N ctx.wall ctx.startc)
    (d : Cost) (hd : (finalState ctx).dist ctx.endc = some d) :
    ∃ p, reconPath ctx (finalState ctx) = some p ∧
      PathFrom ctx.N ctx.wall ctx.startc ctx.endc p ∧
      p.length ≤ ctx.N * ctx.N ∧ (pathCost p).toReal ≤ d.toReal :=
  reconPath_spec ctx (inv_finalState ctx hs).pv hd

/-- Witness for Claim C4. -/
theorem C4_witness :
    ∃ p, reconPath (dijkstraCtx 2 (fun _ => false) (0, 0) (1, 1))
        (finalState (dijkstraCtx 2 (fun _ => false) (0, 0) (1, 1))) = some p ∧
      PathFrom 2 (fun _ => false) (0, 0) (1, 1) p ∧
      p.length ≤ 2 * 2 ∧ (pathCost p).toReal ≤ (Cost.mk 0 1).toReal :=
  C4_reconstruction (dijkstraCtx 2 (fun _ => false) (0, 0) (1, 1)) (by decide)
    ⟨0, 1⟩ (by decide)

/-- Claim C8: the searches are pure functions of the grid, start and end, so
two runs of the same strategy on extensionally equal inputs return the same
result cost. -/
theorem C8_deterministic (N : ℕ) (wall wall' : Coord → Bool) (s e : Coord)
    (hw : ∀ c, wall c = wall' c) :
    resultCost (dijkstraRun N wall s e).1 = resultCost (dijkstraRun N wall' s e).1 ∧
    resultCost (astarRun N wall s e).1 = resultCost (astarRun N wall' s e).1 := by
  have hww : wall = wall' := funext hw
  rw [hww]
  exact ⟨rfl, rfl⟩

/-- Witness for Claim C8. -/
theorem C8_witness :
    resultCost (dijkstraRun 2 (fun _ => false) (0, 0) (1, 1)).1 =
      resultCost (dijkstraRun 2 (fun _ => false) (0, 0) (1, 1)).1 ∧
    resultCost (astarRun 2 (fun _ => false) (0, 0) (1, 1)).1 =
      resultCost (astarRun 2 (fun _ => false) (0, 0) (1, 1)).1 :=
  C8_deterministic 2 (fun _ => false) (fun _ => false) (0, 0) (1, 1) (fun _ => rfl)

/-- Claim C9: a left click toggles only non-anchor cells, so after any click
sequence from the initial empty grid the Start cell (0,0) and the End cell
(19,19) remain unblocked traversable cells. -/
theorem C9_wall_anchor (clicks : List (ℤ × ℤ)) :
    (∀ (w : Coord → Bool) (m : ℤ × ℤ),
      w (0, 0) = false → w (19, 19) = false →
      clickToggle (0, 0) (19, 19) w m (0, 0) = false ∧
      clickToggle (0, 0) (19, 19) w m (19, 19) = false) ∧
    okCell GRID_SIZE (wallAfterClicks clicks) (0, 0) ∧
    okCell GRID_SIZE (wallAfterClicks clicks) (19, 19) := by
  obtain ⟨h1, h2⟩ := wallAfterClicks_anchor clicks
  refine ⟨?_, ⟨by decide, h1⟩, ⟨by decide, h2⟩⟩
  intro w m hw1 hw2
  exact ⟨clickToggle_anchor w m (Or.inl rfl) hw1, clickToggle_anchor w m (Or.inr rfl) hw2⟩

/-- Claim C1: whenever a valid path from Start to End exists, both the
Dijkstra run and the A* run return Found with a valid Start-to-End path,
the two paths have equal total cost, and that common cost is the true
shortest-path cost over 8-directional moves on the unblocked cells. -/
theorem C1_optimality (N : ℕ) (wall : Coord → Bool) (s e : Coord)
    (q0 : List Coord) (hq0 : PathFrom N wall s e q0) :
    ∃ p₁ p₂, (dijkstraRun N wall s e).1 = SearchResult.found p₁ ∧
      (astarRun N wall s e).1 = SearchResult.found p₂ ∧
      PathFrom N wall s e p₁ ∧ PathFrom N wall s e p₂ ∧
      pathCost p₁ = pathCost p₂ ∧
      (∀ q, PathFrom N wall s e q → (pathCost p₁).toReal ≤ (pathCost q).toReal) := by
  obtain ⟨p₁, d₁, hf₁, hd₁, hpf₁, hl₁, hc₁, hopt₁⟩ :=
    runSearch_found (dijkstraCtx N wall s e) (dijkstra_consistent N wall s e)
      (dijkstra_hf0 N wall s e) (dijkstra_WOK N wall s e) hq0
  obtain ⟨p₂, d₂, hf₂, hd₂, hpf₂, hl₂, hc₂, hopt₂⟩ :=
    runSearch_found (astarCtx N wall s e) (astar_consistent N wall s e)
      (astar_hf0 N wall s e) (astar_WOK N wall s e) hq0
  refine ⟨p₁, p₂, hf₁, hf₂, hpf₁, hpf₂, ?_, ?_⟩
  · apply Cost.toReal_inj
    have h12 := hopt₁ p₂ hpf₂
    have h21 := hopt₂ p₁ hpf₁
    rw [hc₁] at h21 ⊢
    rw [hc₂] at h12 ⊢
    exact le_antisymm h12 h21
  · intro q hq
    have := hopt₁ q hq
    rw [hc₁]
    exact this

/-- Witness for Claim C1. -/
theorem C1_witness :
    ∃ p₁ p₂, (dijkstraRun 3 (fun _ => false) (0, 0) (2, 2)).1 = SearchResult.found p₁ ∧
      (astarRun 3 (fun _ => false) (0, 0) (2, 2)).1 = SearchResult.found p₂ ∧
      PathFrom 3 (fun _ => false) (0, 0) (2, 2) p₁ ∧
      PathFrom 3 (fun _ => false) (0, 0) (2, 2) p₂ ∧
      pathCost p₁ = pathCost p₂ ∧
      (∀ q, PathFrom 3 (fun _ => false) (0, 0) (2, 2) q →
        (pathCost p₁).toReal ≤ (pathCost q).toReal) :=
  C1_optimality 3 (fun _ => false) (0, 0) (2, 2) [(0, 0), (1, 1), (2, 2)] (by decide)

/-- Claim C5: a popped entry is discarded as stale exactly when its stored
accumulated cost strictly exceeds the recorded best cost of its coordinate
(the float tolerance only absorbs rounding, so in exact arithmetic the test
is the strict comparison); a stale pop removes the entry and changes nothing
else; and the staleness test and the neighbor relaxation work on the
accumulated cost `g`, never on the priority `f = g + h`: the A* expansion is
the very same state transformation as the Dijkstra expansion. -/
theorem C5_stale_g (N : ℕ) (wall : Coord → Bool) (s e : Coord) :
    (∀ (g : Cost) (dv : Option Cost),
      staleB g dv = true ↔ ∃ d, dv = some d ∧ d.toReal < g.toReal) ∧
    (∀ (ctx : Ctx) (st : SState) (g : Cost) (c : Coord) (rest : List (Cost × Coord)),
      st.done = false → selMin ctx st.pq = some ((g, c), rest) →
      staleB g (st.dist c) = true → step ctx st = { st with pq := rest }) ∧
    (∀ (c : Coord) (g : Cost) (st : SState),
      expand (astarCtx N wall s e) c g st = expand (dijkstraCtx N wall s e) c g st) := by
  refine ⟨?_, ?_, ?_⟩
  · intro g dv
    cases dv with
    | none =>
      rw [staleB_none]
      simp
    | some d =>
      rw [staleB_some_iff]
      constructor
      · intro h
        exact ⟨d, rfl, h⟩
      · rintro ⟨d', hd', h⟩
        injection hd' with hdd
        subst hdd
        exact h
  · intro ctx st g c rest h1 h2 h3
    exact step_stale h1 h2 h3
  · intro c g st
    rfl

/-- Claim C6: neighbor enumeration uses exactly the 8 relative offsets with
both components in {-1, 0, 1} and not both zero; a candidate outside the
[0, N) x [0, N) bounds or on a blocked cell is skipped with no state change;
axis-aligned offsets cost CARDINAL_COST = 1 and diagonal offsets cost
DIAGONAL_COST = sqrt 2. -/
theorem C6_neighbors :
    (directions.length = 8 ∧
      (∀ d : ℤ × ℤ, d ∈ directions ↔
        ((d.1 = -1 ∨ d.1 = 0 ∨ d.1 = 1) ∧ (d.2 = -1 ∨ d.2 = 0 ∨ d.2 = 1) ∧
          d ≠ (0, 0)))) ∧
    (∀ (ctx : Ctx) (c : Coord) (g : Cost) (st : SState) (dir : ℤ × ℤ),
      ¬(inBounds ctx.N (stepTo c dir) ∧ ctx.wall (stepTo c dir) = false) →
      relaxOne ctx c g st dir = st) ∧
    (∀ d : ℤ × ℤ,
      ((d.1 = 0 ∨ d.2 = 0) → moveCost d = cardinalCost) ∧
      (d.1 ≠ 0 ∧ d.2 ≠ 0 → moveCost d = diagonalCost)) ∧
    cardinalCost.toReal = 1 ∧ diagonalCost.toReal = Real.sqrt 2 := by
  refine ⟨⟨rfl, ?_⟩, ?_, ?_, cardinalCost_toReal, diagonalCost_toReal⟩
  · intro d
    constructor
    · intro h
      fin_cases h <;> decide
    · rintro ⟨h1, h2, h3⟩
      obtain ⟨x, y⟩ := d
      simp only at h1 h2 h3
      rcases h1 with rfl | rfl | rfl <;> rcases h2 with rfl | rfl | rfl <;>
        revert h3 <;> decide
  · intro ctx c g st dir h
    exact relaxOne_not_ok h
  · intro d
    constructor
    · intro h
      unfold moveCost
      rcases h with h | h
      · rw [if_neg (fun hc => hc.1 h)]
      · rw [if_neg (fun hc => hc.2 h)]
    · intro h
      unfold moveCost
      rw [if_pos h]

/-- Claim C10: throughout either search, every recorded cell other than
Start has a predecessor link to an adjacent, traversable, recorded cell
whose cost plus the move cost is at most the cell's recorded cost; and at
the moment a relaxation fires, the freshly written cost is exactly the
predecessor's recorded cost plus the move cost between them. -/
theorem C10_prev_links (ctx : Ctx) (hs : okCell ctx.N ctx.wall ctx.startc) :
    (∀ k c d, ((step ctx)^[k] (initState ctx)).dist c = some d →
      okCell ctx.N ctx.wall c ∧
      (c ≠ ctx.startc → ∃ p dp,
        ((step ctx)^[k] (initState ctx)).prev c = some p ∧ Adjacent p c ∧
        ((step ctx)^[k] (initState ctx)).dist p = some dp ∧
        dp.toReal + (edgeCost p c).toReal ≤ d.toReal)) ∧
    (∀ (c : Coord) (g : Cost) (st : SState) (dir : ℤ × ℤ), dir ∈ directions →
      st.dist c = some g →
      okCell ctx.N ctx.wall (stepTo c dir) →
      ltOptB (g + moveCost dir) (st.dist (stepTo c dir)) = true →
      (relaxOne ctx c g st dir).prev (stepTo c dir) = some c ∧
      (relaxOne ctx c g st dir).dist c = some g ∧
      (relaxOne ctx c g st dir).dist (stepTo c dir) =
        some (g + edgeCost c (stepTo c dir))) := by
  constructor
  · intro k c d hd
    exact (inv_iterate ctx (inv_initState ctx hs) k).pv c d hd
  · intro c g st dir hdir hc hok hlt
    rw [relaxOne_improve hok hlt]
    dsimp only
    refine ⟨by rw [if_pos rfl], ?_, ?_⟩
    · rw [if_neg (Ne.symm (stepTo_ne_self hdir))]
      exact hc
    · rw [if_pos rfl, edgeCost_stepTo]

/-- Witness for Claim C10. -/
theorem C10_witness :
    (∀ k c d, ((step (dijkstraCtx 2 (fun _ => false) (0, 0) (1, 1)))^[k]
        (initState (dijkstraCtx 2 (fun _ => false) (0, 0) (1, 1)))).dist c = some d →
      okCell 2 (fun _ => false) c ∧
      (c ≠ ((0, 0) : Coord) → ∃ p dp,
        ((step (dijkstraCtx 2 (fun _ => false) (0, 0) (1, 1)))^[k]
          (initState (dijkstraCtx 2 (fun _ => false) (0, 0) (1, 1)))).prev c = some p ∧
        Adjacent p c ∧
        ((step (dijkstraCtx 2 (fun _ => false) (0, 0) (1, 1)))^[k]
          (initState (dijkstraCtx 2 (fun _ => false) (0, 0) (1, 1)))).dist p = some dp ∧
        dp.toReal + (edgeCost p c).toReal ≤ d.toReal)) ∧
    (∀ (c : Coord) (g : Cost) (st : SState) (dir : ℤ × ℤ), dir ∈ directions →
      st.dist c = some g →
      okCell 2 (fun _ => false) (stepTo c dir) →
      ltOptB (g + moveCost dir) (st.dist (stepTo c dir)) = true →
      (relaxOne (dijkstraCtx 2 (fun _ => false) (0, 0) (1, 1)) c g st dir).prev
          (stepTo c dir) = some c ∧
      (relaxOne (dijkstraCtx 2 (fun _ => false) (0, 0) (1, 1)) c g st dir).dist c =
          some g ∧
      (relaxOne (dijkstraCtx 2 (fun _ => false) (0, 0) (1, 1)) c g st dir).dist
          (stepTo c dir) = some (g + edgeCost c (stepTo c dir))) :=
  C10_prev_links (dijkstraCtx 2 (fun _ => false) (0, 0) (1, 1)) (by decide)

/-! ## Counting the emitted events

The frontier (cyan) events are paid for by the capacity sum `sumRC` against
the current minimal key: every guarded frontier event comes from a strict
improvement, which consumes at least one unit of capacity.  The visited
(grey) events are counted by coordinate: a visited cell is frozen and can
never be re-emitted, so their number is bounded by the number of cells. -/

/-- The capacity sum of the grid against a reference key. -/
def sumRC (ctx : Ctx) (mk : ℤ × ℤ) (st : SState) : ℕ :=
  Finset.sum (cells ctx.N) (fun c => rC ctx mk (st.dist c) c)

/-- The frontier-event budget: the capacity sum against the current minimal
key, zero once the frontier is empty. -/
def fPot (ctx : Ctx) (st : SState) : ℕ :=
  match selMin ctx st.pq with
  | none => 0
  | some (m, _) => sumRC ctx (key ctx m).toZ st

/-- Number of frontier (cyan) events emitted so far. -/
def fCount (st : SState) : ℕ :=
  st.events.countP (fun ev => ev.2 == Tag.frontier)

/-- Number of visited (grey) events emitted so far. -/
def vCount (st : SState) : ℕ :=
  st.events.countP (fun ev => ev.2 == Tag.visited)

/-- The coordinates of the visited events in emission order. -/
def visitedCoords (st : SState) : List Coord :=
  (st.events.filter (fun ev => ev.2 == Tag.visited)).map Prod.fst

theorem sumRC_anti_ref (ctx : Ctx) {mk mk' : ℤ × ℤ} (h : toR mk ≤ toR mk')
    (st : SState) : sumRC ctx mk' st ≤ sumRC ctx mk st :=
  Finset.sum_le_sum (fun c _ => rC_anti_ref ctx h (st.dist c) c)

/-- One successful relaxation strictly decreases the capacity sum against the
popped key. -/
theorem sumRC_improve (ctx : Ctx) {c : Coord} {g : Cost} {mk : ℤ × ℤ}
    (hmk : toR mk = g.toReal + (ctx.hf c).toReal) (hW : WOK ctx)
    (st : SState) {dir : ℤ × ℤ} (hdir : dir ∈ directions)
    (hok : okCell ctx.N ctx.wall (stepTo c dir))
    (hlt : ltOptB (g + moveCost dir) (st.dist (stepTo c dir)) = true) :
    Finset.sum (cells ctx.N)
        (fun x => rC ctx mk
          (if x = stepTo c dir then some (g + moveCost dir) else st.dist x) x) + 1 ≤
      Finset.sum (cells ctx.N) (fun x => rC ctx mk (st.dist x) x) := by
  obtain ⟨v0, hv0mem, hv0⟩ := hW c dir hdir
  have hncells : stepTo c dir ∈ cells ctx.N := mem_cells.mpr hok.1
  have hkeyfact : toR ((g + moveCost dir) + ctx.hf (stepTo c dir)).toZ =
      toR mk + toR v0 := by
    rw [toR_toZ, Cost.toReal_add, Cost.toReal_add, hmk, hv0]
    ring
  have hS'eq : ∀ v,
      (zcLt (zcAdd mk v) ((g + moveCost dir) + ctx.hf (stepTo c dir)).toZ = true) ↔
        toR v < toR v0 := by
    intro v
    rw [zcLt_iff, toR_zcAdd, hkeyfact]
    constructor <;> intro <;> linarith
  have hv0notin : v0 ∉ WF.filter
      (fun v => zcLt (zcAdd mk v) ((g + moveCost dir) + ctx.hf (stepTo c dir)).toZ = true) := by
    rw [Finset.mem_filter]
    rintro ⟨_, hc⟩
    exact absurd ((hS'eq v0).mp hc) (lt_irrefl _)
  have hdec : rC ctx mk (some (g + moveCost dir)) (stepTo c dir) + 1 ≤
      rC ctx mk (st.dist (stepTo c dir)) (stepTo c dir) := by
    cases hdn : st.dist (stepTo c dir) with
    | none =>
      show (WF.filter _).card + 1 ≤ WF.card
      rw [← Finset.card_insert_of_not_mem hv0notin]
      apply Finset.card_le_card
      intro v hv
      rcases Finset.mem_insert.mp hv with rfl | hv'
      · exact hv0mem
      · exact Finset.filter_subset _ _ hv'
    | some dn =>
      rw [hdn] at hlt
      have hlt' := (ltOptB_some_iff _ _).mp hlt
      show (WF.filter _).card + 1 ≤ (WF.filter _).card
      rw [← Finset.card_insert_of_not_mem hv0notin]
      apply Finset.card_le_card
      intro v hv
      rw [Finset.mem_filter]
      rcases Finset.mem_insert.mp hv with rfl | hv'
      · refine ⟨hv0mem, ?_⟩
        rw [zcLt_iff, toR_zcAdd, toR_toZ, Cost.toReal_add]
        have h1 : toR mk + toR v = ((g + moveCost dir) + ctx.hf (stepTo c dir)).toReal := by
          rw [← toR_toZ (g + moveCost dir + ctx.hf (stepTo c dir)), hkeyfact]
        rw [Cost.toReal_add, Cost.toReal_add] at h1
        rw [Cost.toReal_add] at hlt'
        linarith
      · obtain ⟨hvWF, hvlt⟩ := Finset.mem_filter.mp hv'
        refine ⟨hvWF, ?_⟩
        have hvlt' := (hS'eq v).mp hvlt
        rw [zcLt_iff, toR_zcAdd, toR_toZ, Cost.toReal_add]
        have h1 : toR mk + toR v0 = ((g + moveCost dir) + ctx.hf (stepTo c dir)).toReal := by
          rw [← toR_toZ (g + moveCost dir + ctx.hf (stepTo c dir)), hkeyfact]
        rw [Cost.toReal_add, Cost.toReal_add] at h1
        rw [Cost.toReal_add] at hlt'
        linarith
  have hsplit_new := Finset.sum_erase_add (cells ctx.N)
    (fun x => rC ctx mk (if x = stepTo c dir then some (g + moveCost dir) else st.dist x) x)
    hncells
  have hsplit_old := Finset.sum_erase_add (cells ctx.N)
    (fun x => rC ctx mk (st.dist x) x) hncells
  have hsame : Finset.sum ((cells ctx.N).erase (stepTo c dir))
      (fun x => rC ctx mk (if x = stepTo c dir then some (g + moveCost dir) else st.dist x) x) =
      Finset.sum ((cells ctx.N).erase (stepTo c dir))
        (fun x => rC ctx mk (st.dist x) x) := by
    apply Finset.sum_congr rfl
    intro x hx
    rw [if_neg (Finset.mem_erase.mp hx).1]
  rw [← hsplit_new, ← hsplit_old, hsame]
  dsimp only
  rw [if_pos rfl]
  omega

/-- One relaxation pays for every event it appends out of the capacity sum. -/
theorem sumRC_relaxOne_events (ctx : Ctx) {c : Coord} {g : Cost} {mk : ℤ × ℤ}
    (hmk : toR mk = g.toReal + (ctx.hf c).toReal) (hW : WOK ctx)
    (st : SState) {dir : ℤ × ℤ} (hdir : dir ∈ directions) :
    sumRC ctx mk (relaxOne ctx c g st dir) +
        (relaxOne ctx c g st dir).events.length ≤
      sumRC ctx mk st + st.events.length := by
  rcases relaxOne_cases ctx c g st dir with heq | ⟨hok, hlt, heq⟩
  · rw [heq]
  · have hcore := sumRC_improve ctx hmk hW st hdir hok hlt
    rw [heq]
    unfold sumRC
    dsimp only
    by_cases hg : stepTo c dir = ctx.startc ∨ stepTo c dir = ctx.endc
    · rw [if_pos hg]
      omega
    · rw [if_neg hg, List.length_append, List.length_singleton]
      omega

theorem sumRC_foldl_events (ctx : Ctx) {c : Coord} {g : Cost} {mk : ℤ × ℤ}
    (hmk : toR mk = g.toReal + (ctx.hf c).toReal) (hW : WOK ctx) :
    ∀ (dirs : List (ℤ × ℤ)) (st : SState), (∀ d ∈ dirs, d ∈ directions) →
      sumRC ctx mk (List.foldl (relaxOne ctx c g) st dirs) +
          (List.foldl (relaxOne ctx c g) st dirs).events.length ≤
        sumRC ctx mk st + st.events.length := by
  intro dirs
  induction dirs with
  | nil => intro st _; exact le_refl _
  | cons dir dirs ih =>
    intro st hsub
    rw [List.foldl_cons]
    exact le_trans (ih _ (fun d hd => hsub d (List.mem_cons_of_mem dir hd)))
      (sumRC_relaxOne_events ctx hmk hW st (hsub dir (List.mem_cons_self dir dirs)))

/-- Popping one entry never raises the frontier budget. -/
theorem fPot_drop (ctx : Ctx) {st : SState} {g : Cost} {c : Coord}
    {rest : List (Cost × Coord)}
    (hsel : selMin ctx st.pq = some ((g, c), rest)) (st' : SState)
    (hdist : st'.dist = st.dist) (hpq : st'.pq = rest) :
    fPot ctx st' ≤ fPot ctx st := by
  have hmin := (selMin_spec ctx st.pq _ _ hsel).2
  have hfpotst : fPot ctx st = sumRC ctx (key ctx (g, c)).toZ st := by
    unfold fPot
    rw [hsel]
  rw [hfpotst]
  unfold fPot
  rw [hpq]
  cases hsel' : selMin ctx rest with
  | none =>
    dsimp only
    omega
  | some p' =>
    obtain ⟨m', rest'⟩ := p'
    dsimp only
    have hkle : (key ctx (g, c)).toReal ≤ (key ctx m').toReal :=
      hmin m' (selMin_rest_subset hsel m' (selMin_self_mem hsel'))
    have h1 : sumRC ctx (key ctx m').toZ st' ≤ sumRC ctx (key ctx (g, c)).toZ st' :=
      sumRC_anti_ref ctx (by rw [toR_toZ, toR_toZ]; exact hkle) _
    have h2 : sumRC ctx (key ctx (g, c)).toZ st' = sumRC ctx (key ctx (g, c)).toZ st := by
      unfold sumRC
      rw [hdist]
    omega

/-- Each iteration pays for its frontier events out of the frontier budget. -/
theorem fCount_step (ctx : Ctx) (hW : WOK ctx) (st : SState) :
    fCount (step ctx st) + fPot ctx (step ctx st) ≤ fCount st + fPot ctx st := by
  cases hdone : st.done with
  | true => rw [step_done hdone]
  | false =>
  cases hsel : selMin ctx st.pq with
  | none => rw [step_empty hdone (selMin_eq_none hsel)]
  | some p =>
  obtain ⟨⟨g, c⟩, rest⟩ := p
  cases hstale : staleB g (st.dist c) with
  | true =>
    rw [step_stale hdone hsel hstale]
    have hdrop := fPot_drop ctx hsel { st with pq := rest } rfl rfl
    have hfc : fCount { st with pq := rest } = fCount st := rfl
    omega
  | false =>
  by_cases hcend : c = ctx.endc
  · subst hcend
    rw [step_break hdone hsel hstale]
    have hdrop := fPot_drop ctx hsel { st with pq := rest, done := true } rfl rfl
    have hfc : fCount { st with pq := rest, done := true } = fCount st := rfl
    omega
  · rw [step_expand hdone hsel hstale hcend]
    set st1 : SState :=
      { st with
        pq := rest
        events :=
          if c = ctx.startc ∨ c = ctx.endc then st.events
          else st.events ++ [(c, Tag.visited)] } with hst1
    have hmk : toR (key ctx (g, c)).toZ = g.toReal + (ctx.hf c).toReal := by
      rw [toR_toZ]
      show (g + ctx.hf c).toReal = _
      rw [Cost.toReal_add]
    have hfoldl : sumRC ctx (key ctx (g, c)).toZ (expand ctx c g st1) +
        (expand ctx c g st1).events.length ≤
        sumRC ctx (key ctx (g, c)).toZ st1 + st1.events.length :=
      sumRC_foldl_events ctx hmk hW directions st1 (fun d hd => hd)
    obtain ⟨tl, htl, htlmem⟩ := foldl_events_append ctx c g directions st1
    have hfc_exp : fCount (expand ctx c g st1) ≤ fCount st1 + tl.length := by
      unfold fCount
      rw [show (expand ctx c g st1).events = st1.events ++ tl from htl, List.countP_append]
      have := List.countP_le_length (p := fun ev : Event => ev.2 == Tag.frontier) (l := tl)
      omega
    have hlen_exp : (expand ctx c g st1).events.length = st1.events.length + tl.length := by
      rw [show (expand ctx c g st1).events = st1.events ++ tl from htl, List.length_append]
    have hsum1 : sumRC ctx (key ctx (g, c)).toZ st1 = sumRC ctx (key ctx (g, c)).toZ st :=
      rfl
    have hfc1 : fCount st1 = fCount st := by
      rw [hst1]
      unfold fCount
      dsimp only
      by_cases hg : c = ctx.startc ∨ c = ctx.endc
      · rw [if_pos hg]
      · rw [if_neg hg, List.countP_append]
        have hone : List.countP (fun ev : Event => ev.2 == Tag.frontier)
            [(c, Tag.visited)] = 0 := rfl
        omega
    have hfpot_exp : fPot ctx (expand ctx c g st1) ≤
        sumRC ctx (key ctx (g, c)).toZ (expand ctx c g st1) := by
      unfold fPot
      cases hsel' : selMin ctx (expand ctx c g st1).pq with
      | none =>
        dsimp only
        omega
      | some p' =>
        obtain ⟨m', rest'⟩ := p'
        dsimp only
        have hm'mem : m' ∈ (expand ctx c g st1).pq := selMin_self_mem hsel'
        have hkle : toR (key ctx (g, c)).toZ ≤ toR (key ctx m').toZ := by
          rw [toR_toZ, toR_toZ]
          rcases foldl_pq_key ctx hmk hW directions st1 (fun d hd => hd) m' hm'mem with
            hm'' | hm''
          · exact (selMin_spec ctx st.pq _ _ hsel).2 m' (selMin_rest_subset hsel m' hm'')
          · rw [← toR_toZ (key ctx (g, c))]
            exact hm''
        exact sumRC_anti_ref ctx hkle _
    have hfpotst : fPot ctx st = sumRC ctx (key ctx (g, c)).toZ st := by
      unfold fPot
      rw [hsel]
    omega

theorem fCount_iterate (ctx : Ctx) (hW : WOK ctx) (k : ℕ) :
    fCount ((step ctx)^[k] (initState ctx)) + fPot ctx ((step ctx)^[k] (initState ctx)) ≤
      fCount (initState ctx) + fPot ctx (initState ctx) := by
  induction k with
  | zero => exact le_refl _
  | succ k ih =>
    rw [Function.iterate_succ_apply']
    exact le_trans (fCount_step ctx hW _) ih

theorem fCount_init (ctx : Ctx) : fCount (initState ctx) = 1 := rfl

theorem fPot_init_le (ctx : Ctx) : fPot ctx (initState ctx) ≤ 6 * (ctx.N * ctx.N) := by
  unfold fPot
  cases hsel : selMin ctx (initState ctx).pq with
  | none =>
    dsimp only
    omega
  | some p =>
    obtain ⟨m, rest⟩ := p
    dsimp only
    unfold sumRC
    have h1 : Finset.sum (cells ctx.N)
        (fun c => rC ctx (key ctx m).toZ ((initState ctx).dist c) c) ≤
        (cells ctx.N).card * 6 := by
      refine le_trans (Finset.sum_le_card_nsmul _ _ 6 ?_) ?_
      · intro c _
        rw [← WF_card]
        exact rC_le_card ctx _ _ c
      · rw [smul_eq_mul]
    have h2 := card_cells ctx.N
    omega

/-- A frozen cell: recorded, its key bounds every pending key, and every
pending entry for it stores a strictly larger cost, so it will be discarded
as stale when popped. -/
def Frozen (ctx : Ctx) (st : SState) (c : Coord) : Prop :=
  ∃ dc, st.dist c = some dc ∧
    (∀ e ∈ st.pq, (key ctx (dc, c)).toReal ≤ (key ctx e).toReal) ∧
    (∀ e ∈ st.pq, e.2 = c → dc.toReal < e.1.toReal)

/-- Pending entries for one coordinate store pairwise distinct costs. -/
def pdInv (st : SState) : Prop :=
  st.pq.Pairwise (fun e₁ e₂ => e₁.2 = e₂.2 → e₁.1 ≠ e₂.1)

/-- The counting invariant: distinct pending costs per cell, every visited
event's cell frozen, and pairwise distinct visited cells. -/
structure CInv (ctx : Ctx) (st : SState) : Prop where
  pd : pdInv st
  vis : ∀ ev ∈ st.events, ev.2 = Tag.visited → Frozen ctx st ev.1
  vnd : (visitedCoords st).Nodup

/-- With a consistent heuristic, one relaxation from a source whose key
dominates a frozen cell's key can neither improve the frozen cell nor push a
new entry for it, and its pushes keep every pending key above the frozen
key. -/
theorem relaxOne_frozen (ctx : Ctx) (hcons : Consistent ctx)
    {c : Coord} {g : Cost} {st : SState} {dir : ℤ × ℤ} (hdir : dir ∈ directions)
    {c₀ : Coord} {dc : Cost}
    (hsrc : (key ctx (dc, c₀)).toReal ≤ (key ctx (g, c)).toReal)
    (hd : st.dist c₀ = some dc)
    (hq : ∀ e ∈ st.pq, (key ctx (dc, c₀)).toReal ≤ (key ctx e).toReal)
    (hqc : ∀ e ∈ st.pq, e.2 = c₀ → dc.toReal < e.1.toReal) :
    (relaxOne ctx c g st dir).dist c₀ = some dc ∧
    (∀ e ∈ (relaxOne ctx c g st dir).pq,
      (key ctx (dc, c₀)).toReal ≤ (key ctx e).toReal) ∧
    (∀ e ∈ (relaxOne ctx c g st dir).pq, e.2 = c₀ → dc.toReal < e.1.toReal) := by
  have hkey1 : (key ctx (dc, c₀)).toReal = dc.toReal + (ctx.hf c₀).toReal := by
    show ((dc + ctx.hf c₀)).toReal = _
    rw [Cost.toReal_add]
  have hkey2 : (key ctx (g, c)).toReal = g.toReal + (ctx.hf c).toReal := by
    show ((g + ctx.hf c)).toReal = _
    rw [Cost.toReal_add]
  have hcestep : (ctx.hf c).toReal ≤
      (moveCost dir).toReal + (ctx.hf (stepTo c dir)).toReal := by
    have hadj : Adjacent c (stepTo c dir) := adjacent_stepTo hdir c
    have hco := hcons c (stepTo c dir) hadj
    rw [edgeCost_stepTo] at hco
    exact hco
  rcases relaxOne_cases ctx c g st dir with heq | ⟨hok, hlt, heq⟩
  · rw [heq]
    exact ⟨hd, hq, hqc⟩
  · have hne : stepTo c dir ≠ c₀ := by
      intro hcc
      rw [hcc, hd] at hlt
      have hlt' := (ltOptB_some_iff _ _).mp hlt
      rw [Cost.toReal_add] at hlt'
      rw [hkey1, hkey2] at hsrc
      rw [hcc] at hcestep
      linarith
    rw [heq]
    dsimp only
    refine ⟨?_, ?_, ?_⟩
    · rw [if_neg (fun h => hne h.symm)]
      exact hd
    · intro e he
      rcases List.mem_append.mp he with h | h
      · exact hq e h
      · have heq2 : e = (g + moveCost dir, stepTo c dir) := by simpa using h
        subst heq2
        refine le_trans hsrc ?_
        rw [hkey2]
        show _ ≤ ((g + moveCost dir) + ctx.hf (stepTo c dir)).toReal
        rw [Cost.toReal_add, Cost.toReal_add]
        linarith
    · intro e he hec
      rcases List.mem_append.mp he with h | h
      · exact hqc e h hec
      · have heq2 : e = (g + moveCost dir, stepTo c dir) := by simpa using h
        subst heq2
        exact absurd hec hne

theorem foldl_frozen (ctx : Ctx) (hcons : Consistent ctx) {c : Coord} {g : Cost}
    {c₀ : Coord} {dc : Cost}
    (hsrc : (key ctx (dc, c₀)).toReal ≤ (key ctx (g, c)).toReal) :
    ∀ (dirs : List (ℤ × ℤ)) (st : SState), (∀ d ∈ dirs, d ∈ directions) →
      st.dist c₀ = some dc →
      (∀ e ∈ st.pq, (key ctx (dc, c₀)).toReal ≤ (key ctx e).toReal) →
      (∀ e ∈ st.pq, e.2 = c₀ → dc.toReal < e.1.toReal) →
      (List.foldl (relaxOne ctx c g) st dirs).dist c₀ = some dc ∧
      (∀ e ∈ (List.foldl (relaxOne ctx c g) st dirs).pq,
        (key ctx (dc, c₀)).toReal ≤ (key ctx e).toReal) ∧
      (∀ e ∈ (List.foldl (relaxOne ctx c g) st dirs).pq,
        e.2 = c₀ → dc.toReal < e.1.toReal) := by
  intro dirs
  induction dirs with
  | nil =>
    intro st _ hd hq hqc
    exact ⟨hd, hq, hqc⟩
  | cons dir dirs ih =>
    intro st hsub hd hq hqc
    rw [List.foldl_cons]
    obtain ⟨hd', hq', hqc'⟩ := relaxOne_frozen ctx hcons
      (hsub dir (List.mem_cons_self dir dirs)) hsrc hd hq hqc
    exact ih _ (fun d hdm => hsub d (List.mem_cons_of_mem dir hdm)) hd' hq' hqc'

/-- A push records a strictly smaller cost than every pending entry of the
same coordinate, so distinctness of pending costs is preserved. -/
theorem relaxOne_pd (ctx : Ctx) {c : Coord} {g : Cost} {st : SState} {dir : ℤ × ℤ}
    (hq : QOK st) (hpd : pdInv st) : pdInv (relaxOne ctx c g st dir) := by
  rcases relaxOne_cases ctx c g st dir with heq | ⟨hok, hlt, heq⟩
  · rw [heq]
    exact hpd
  · rw [heq]
    unfold pdInv
    dsimp only
    rw [List.pairwise_append]
    refine ⟨hpd, List.pairwise_singleton _ _, ?_⟩
    intro e he e' he'
    have heq2 : e' = (g + moveCost dir, stepTo c dir) := by simpa using he'
    subst heq2
    intro hee heq1
    obtain ⟨d, hdist, hle⟩ := hq e he
    rw [hee] at hdist
    dsimp only at hdist
    rw [hdist] at hlt
    have hlt' := (ltOptB_some_iff _ _).mp hlt
    rw [heq1] at hle
    dsimp only at hle
    linarith

theorem foldl_pd (ctx : Ctx) {c : Coord} {g : Cost} :
    ∀ (dirs : List (ℤ × ℤ)) (st : SState), QOK st → pdInv st →
      pdInv (List.foldl (relaxOne ctx c g) st dirs) := by
  intro dirs
  induction dirs with
  | nil =>
    intro st _ hpd
    exact hpd
  | cons dir dirs ih =>
    intro st hq hpd
    rw [List.foldl_cons]
    exact ih _ (relaxOne_QOK hq) (relaxOne_pd ctx hq hpd)

theorem selMin_pairwise {ctx : Ctx} {l : List (Cost × Coord)} {m : Cost × Coord}
    {rest : List (Cost × Coord)} (hsel : selMin ctx l = some (m, rest))
    (hpd : l.Pairwise (fun e₁ e₂ => e₁.2 = e₂.2 → e₁.1 ≠ e₂.1)) :
    (m :: rest).Pairwise (fun e₁ e₂ => e₁.2 = e₂.2 → e₁.1 ≠ e₂.1) := by
  have hperm := (selMin_spec ctx l m rest hsel).1
  exact (hperm.pairwise_iff (fun h h22 => (h h22.symm).symm)).mp hpd

/-- One iteration preserves the counting invariant. -/
theorem cinv_step (ctx : Ctx) (hcons : Consistent ctx) {st : SState}
    (hInv : Inv ctx st) (hC : CInv ctx st) : CInv ctx (step ctx st) := by
  cases hdone : st.done with
  | true =>
    rw [step_done hdone]
    exact hC
  | false =>
  cases hsel : selMin ctx st.pq with
  | none =>
    rw [step_empty hdone (selMin_eq_none hsel)]
    exact hC
  | some p =>
  obtain ⟨⟨g, c⟩, rest⟩ := p
  have hpair := selMin_pairwise hsel hC.pd
  have hpd_rest : rest.Pairwise (fun e₁ e₂ => e₁.2 = e₂.2 → e₁.1 ≠ e₂.1) :=
    (List.pairwise_cons.mp hpair).2
  have hrel_rest := (List.pairwise_cons.mp hpair).1
  cases hstale : staleB g (st.dist c) with
  | true =>
    rw [step_stale hdone hsel hstale]
    refine ⟨hpd_rest, ?_, hC.vnd⟩
    intro ev hev hv
    obtain ⟨dc, hdc, h2, h3⟩ := hC.vis ev hev hv
    exact ⟨dc, hdc, fun e he => h2 e (selMin_rest_subset hsel e he),
      fun e he => h3 e (selMin_rest_subset hsel e he)⟩
  | false =>
  have hdistc : st.dist c = some g := by
    obtain ⟨d0, hd0, hle0⟩ := hInv.qok (g, c) (selMin_self_mem hsel)
    have hstale0 : staleB g (some d0) = false := by
      rw [← hd0]
      exact hstale
    have hd0g := popped_cost_eq hstale0 hle0
    rw [hd0, hd0g]
  by_cases hcend : c = ctx.endc
  · subst hcend
    rw [step_break hdone hsel hstale]
    refine ⟨hpd_rest, ?_, hC.vnd⟩
    intro ev hev hv
    obtain ⟨dc, hdc, h2, h3⟩ := hC.vis ev hev hv
    exact ⟨dc, hdc, fun e he => h2 e (selMin_rest_subset hsel e he),
      fun e he => h3 e (selMin_rest_subset hsel e he)⟩
  · rw [step_expand hdone hsel hstale hcend]
    set st1 : SState :=
      { st with
        pq := rest
        events :=
          if c = ctx.startc ∨ c = ctx.endc then st.events
          else st.events ++ [(c, Tag.visited)] } with hst1
    have hmin := (selMin_spec ctx st.pq _ _ hsel).2
    have hq1 : QOK st1 := fun e he => hInv.qok e (selMin_rest_subset hsel e he)
    have hpd1 : pdInv st1 := hpd_rest
    have hfrozen_c : st1.dist c = some g ∧
        (∀ e ∈ st1.pq, (key ctx (g, c)).toReal ≤ (key ctx e).toReal) ∧
        (∀ e ∈ st1.pq, e.2 = c → g.toReal < e.1.toReal) := by
      refine ⟨hdistc, ?_, ?_⟩
      · intro e he
        exact hmin e (selMin_rest_subset hsel e he)
      · intro e he hec
        have hge : (key ctx (g, c)).toReal ≤ (key ctx e).toReal :=
          hmin e (selMin_rest_subset hsel e he)
        have hgne := hrel_rest e he hec.symm
        have hle : g.toReal ≤ e.1.toReal := by
          have h1 : (key ctx (g, c)).toReal = g.toReal + (ctx.hf c).toReal := by
            show ((g + ctx.hf c)).toReal = _
            rw [Cost.toReal_add]
          have h2 : (key ctx e).toReal = e.1.toReal + (ctx.hf e.2).toReal := by
            show ((e.1 + ctx.hf e.2)).toReal = _
            rw [Cost.toReal_add]
          rw [h1, h2, hec] at hge
          linarith
        rcases lt_or_eq_of_le hle with h | h
        · exact h
        · exact absurd (Cost.toReal_inj h) hgne
    obtain ⟨tl, htl, htlmem⟩ := foldl_events_append ctx c g directions st1
    refine ⟨foldl_pd ctx directions st1 hq1 hpd1, ?_, ?_⟩
    · intro ev hev hv
      rw [show (expand ctx c g st1).events = st1.events ++ tl from htl] at hev
      rcases List.mem_append.mp hev with hev' | hev'
      · have hold_or_new : ev ∈ st.events ∨
            (¬(c = ctx.startc ∨ c = ctx.endc) ∧ ev = (c, Tag.visited)) := by
          rw [hst1] at hev'
          dsimp only at hev'
          by_cases hg : c = ctx.startc ∨ c = ctx.endc
          · rw [if_pos hg] at hev'
            exact Or.inl hev'
          · rw [if_neg hg] at hev'
            rcases List.mem_append.mp hev' with h | h
            · exact Or.inl h
            · exact Or.inr ⟨hg, by simpa using h⟩
        rcases hold_or_new with hev'' | ⟨hg, rfl⟩
        · obtain ⟨dc, hdc, h2, h3⟩ := hC.vis ev hev'' hv
          have hsrc : (key ctx (dc, ev.1)).toReal ≤ (key ctx (g, c)).toReal :=
            h2 (g, c) (selMin_self_mem hsel)
          obtain ⟨hd', hq', hqc'⟩ := foldl_frozen ctx hcons hsrc directions st1
            (fun d hd => hd) hdc
            (fun e he => h2 e (selMin_rest_subset hsel e he))
            (fun e he => h3 e (selMin_rest_subset hsel e he))
          exact ⟨dc, hd', hq', hqc'⟩
        · obtain ⟨hd1, hq1', hqc1⟩ := hfrozen_c
          obtain ⟨hd', hq', hqc'⟩ := foldl_frozen ctx hcons (le_refl _) directions st1
            (fun d hd => hd) hd1 hq1' hqc1
          exact ⟨g, hd', hq', hqc'⟩
      · exact absurd ((htlmem ev hev').1) (by rw [hv]; decide)
    · have hvc : visitedCoords (expand ctx c g st1) = visitedCoords st1 := by
        unfold visitedCoords
        rw [show (expand ctx c g st1).events = st1.events ++ tl from htl,
          List.filter_append, List.map_append]
        have hnil : tl.filter (fun ev => ev.2 == Tag.visited) = [] := by
          rw [List.filter_eq_nil_iff]
          intro ev hev
          rw [(htlmem ev hev).1]
          decide
        rw [hnil, List.map_nil, List.append_nil]
      rw [hvc]
      by_cases hg : c = ctx.startc ∨ c = ctx.endc
      · have hsame : visitedCoords st1 = visitedCoords st := by
          unfold visitedCoords
          rw [hst1]
          dsimp only
          rw [if_pos hg]
        rw [hsame]
        exact hC.vnd
      · have hvc1 : visitedCoords st1 = visitedCoords st ++ [c] := by
          unfold visitedCoords
          rw [hst1]
          dsimp only
          rw [if_neg hg, List.filter_append, List.map_append]
          congr 1
        rw [hvc1, List.nodup_append]
        refine ⟨hC.vnd, List.nodup_singleton c, ?_⟩
        intro x hx hx'
        have hxc : x = c := by simpa using hx'
        rw [hxc] at hx
        unfold visitedCoords at hx
        rw [List.mem_map] at hx
        obtain ⟨ev, hev, hev1⟩ := hx
        rw [List.mem_filter] at hev
        have hv : ev.2 = Tag.visited := eq_of_beq hev.2
        obtain ⟨dc, hdc, _h2, h3⟩ := hC.vis ev hev.1 hv
        rw [hev1, hdistc] at hdc
        injection hdc with hdceq
        have hlast := h3 (g, c) (selMin_self_mem hsel) hev1.symm
        rw [← hdceq] at hlast
        exact lt_irrefl _ hlast

theorem cinv_iterate (ctx : Ctx) (hcons : Consistent ctx)
    (hs : okCell ctx.N ctx.wall ctx.startc) (k : ℕ) :
    CInv ctx ((step ctx)^[k] (initState ctx)) := by
  induction k with
  | zero =>
    refine ⟨List.pairwise_singleton _ _, ?_, ?_⟩
    · intro ev hev hv
      have hev' : ev = (ctx.startc, Tag.frontier) := by simpa [initState] using hev
      rw [hev'] at hv
      exact absurd hv (fun hcon => Tag.noConfusion hcon)
    · show (visitedCoords (initState ctx)).Nodup
      have hn : visitedCoords (initState ctx) = [] := rfl
      rw [hn]
      exact List.nodup_nil
  | succ k ih =>
    rw [Function.iterate_succ_apply']
    exact cinv_step ctx hcons (inv_iterate ctx (inv_initState ctx hs) k) ih

/-- Visited cells are pairwise distinct traversable cells, so there are at
most N*N visited events. -/
theorem vCount_le (ctx : Ctx) {st : SState} (hC : CInv ctx st) (hpv : prevInv ctx st) :
    vCount st ≤ ctx.N * ctx.N := by
  have hlen : vCount st = (visitedCoords st).length := by
    unfold vCount visitedCoords
    rw [List.length_map, List.countP_eq_length_filter]
  have hmem : ∀ x ∈ visitedCoords st, x ∈ cells ctx.N := by
    intro x hx
    unfold visitedCoords at hx
    rw [List.mem_map] at hx
    obtain ⟨ev, hev, hev1⟩ := hx
    rw [List.mem_filter] at hev
    have hv : ev.2 = Tag.visited := eq_of_beq hev.2
    obtain ⟨dc, hdc, _, _⟩ := hC.vis ev hev.1 hv
    have hok := (hpv ev.1 dc hdc).1
    rw [← hev1]
    exact mem_cells.mpr hok.1
  calc vCount st = (visitedCoords st).length := hlen
    _ = (visitedCoords st).toFinset.card := (List.toFinset_card_of_nodup hC.vnd).symm
    _ ≤ (cells ctx.N).card :=
        Finset.card_le_card (fun x hx => hmem x (List.mem_toFinset.mp hx))
    _ ≤ ctx.N * ctx.N := card_cells ctx.N

/-- A list of frontier and visited events splits into the two counts. -/
theorem length_eq_counts (l : List Event)
    (h : ∀ ev ∈ l, ev.2 = Tag.frontier ∨ ev.2 = Tag.visited) :
    l.length = l.countP (fun ev => ev.2 == Tag.frontier) +
      l.countP (fun ev => ev.2 == Tag.visited) := by
  induction l with
  | nil => rfl
  | cons ev l ih =>
    have hrest : ∀ e ∈ l, e.2 = Tag.frontier ∨ e.2 = Tag.visited :=
      fun e he => h e (List.mem_cons_of_mem ev he)
    have hev := h ev (List.mem_cons_self ev l)
    rw [List.length_cons, List.countP_cons, List.countP_cons, ih hrest]
    rcases hev with h1 | h1 <;> rw [h1]
    · have e1 : ((Tag.frontier == Tag.frontier) : Bool) = true := rfl
      have e2 : ((Tag.frontier == Tag.visited) : Bool) = false := rfl
      rw [e1, e2]
      simp
      omega
    · have e1 : ((Tag.visited == Tag.frontier) : Bool) = false := rfl
      have e2 : ((Tag.visited == Tag.visited) : Bool) = true := rfl
      rw [e1, e2]
      simp
      omega

/-- The run only ever appends to the loop's event list. -/
theorem runSearch_events_extends (ctx : Ctx) :
    ∃ tl, (runSearch ctx).2 = (finalState ctx).events ++ tl := by
  cases hd : (finalState ctx).dist ctx.endc with
  | none =>
    exact ⟨[], by rw [(runSearch_notFound_events ctx hd).2, List.append_nil]⟩
  | some d =>
    cases hrp : reconPath ctx (finalState ctx) with
    | none =>
      refine ⟨[], ?_⟩
      rw [List.append_nil]
      simp only [runSearch]
      rw [hd]
      dsimp only
      rw [hrp]
    | some p =>
      obtain ⟨tl, htl, _, _⟩ := pathEvents_append ctx p (finalState ctx).events
      refine ⟨tl, ?_⟩
      simp only [runSearch]
      rw [hd]
      dsimp only
      rw [hrp]
      dsimp only
      exact htl

/-- The full-run event budget: at most 1 + 6N² frontier events, N² visited
events and N² path events. -/
theorem runSearch_events_bound (ctx : Ctx) (hcons : Consistent ctx) (hW : WOK ctx)
    (hs : okCell ctx.N ctx.wall ctx.startc) :
    (runSearch ctx).2.length ≤ 8 * (ctx.N * ctx.N) + 1 := by
  have hInv : Inv ctx (finalState ctx) := inv_finalState ctx hs
  have hC : CInv ctx (finalState ctx) := cinv_iterate ctx hcons hs (searchFuel ctx.N)
  have hlen : (finalState ctx).events.length =
      fCount (finalState ctx) + vCount (finalState ctx) :=
    length_eq_counts _ (iterate_events_tags ctx (searchFuel ctx.N))
  have hf : fCount (finalState ctx) + fPot ctx (finalState ctx) ≤
      fCount (initState ctx) + fPot ctx (initState ctx) :=
    fCount_iterate ctx hW (searchFuel ctx.N)
  have hfinit : fCount (initState ctx) = 1 := fCount_init ctx
  have hfpotinit : fPot ctx (initState ctx) ≤ 6 * (ctx.N * ctx.N) := fPot_init_le ctx
  have hv : vCount (finalState ctx) ≤ ctx.N * ctx.N := vCount_le ctx hC hInv.pv
  have hloop : (finalState ctx).events.length ≤ 7 * (ctx.N * ctx.N) + 1 := by omega
  cases hd : (finalState ctx).dist ctx.endc with
  | none =>
    rw [(runSearch_notFound_events ctx hd).2]
    omega
  | some d =>
    obtain ⟨p, hrp, hpf, hplen, hpcost⟩ := reconPath_spec ctx hInv.pv hd
    have hre : (runSearch ctx).2 = pathEvents ctx p (finalState ctx).events := by
      simp only [runSearch]
      rw [hd]
      dsimp only
      rw [hrp]
    obtain ⟨tl, htl, htllen, _⟩ := pathEvents_append ctx p (finalState ctx).events
    rw [hre, htl, List.length_append]
    omega

/-- Claim C7: each search invocation halts (the loop reaches a terminal
state, goal break or exhausted frontier, within the analysed fuel), the
emitted event sequence only ever grows, and the total number of emitted
events is at most 8*N^2 + N. -/
theorem C7_events_bound (N : ℕ) (wall : Coord → Bool) (s e : Coord)
    (hN : 1 ≤ N) (hs : okCell N wall s) :
    (((finalState (dijkstraCtx N wall s e)).done = true ∨
        (finalState (dijkstraCtx N wall s e)).pq = []) ∧
      ((finalState (astarCtx N wall s e)).done = true ∨
        (finalState (astarCtx N wall s e)).pq = [])) ∧
    (∀ k, (∃ tl, ((step (dijkstraCtx N wall s e))^[k + 1]
          (initState (dijkstraCtx N wall s e))).events =
        ((step (dijkstraCtx N wall s e))^[k]
          (initState (dijkstraCtx N wall s e))).events ++ tl) ∧
      (∃ tl, ((step (astarCtx N wall s e))^[k + 1]
          (initState (astarCtx N wall s e))).events =
        ((step (astarCtx N wall s e))^[k]
          (initState (astarCtx N wall s e))).events ++ tl)) ∧
    (∃ tl, (dijkstraRun N wall s e).2 =
      (finalState (dijkstraCtx N wall s e)).events ++ tl) ∧
    (∃ tl, (astarRun N wall s e).2 =
      (finalState (astarCtx N wall s e)).events ++ tl) ∧
    (dijkstraRun N wall s e).2.length ≤ 8 * (N * N) + N ∧
    (astarRun N wall s e).2.length ≤ 8 * (N * N) + N := by
  have hb1 := runSearch_events_bound (dijkstraCtx N wall s e)
    (dijkstra_consistent N wall s e) (dijkstra_WOK N wall s e) hs
  have hb2 := runSearch_events_bound (astarCtx N wall s e)
    (astar_consistent N wall s e) (astar_WOK N wall s e) hs
  refine ⟨⟨finalState_terminal _ (dijkstra_WOK N wall s e),
      finalState_terminal _ (astar_WOK N wall s e)⟩,
    fun k => ⟨iterate_events_append _ _ k, iterate_events_append _ _ k⟩,
    runSearch_events_extends _,
    runSearch_events_extends _,
    ?_, ?_⟩
  · calc (dijkstraRun N wall s e).2.length ≤ 8 * (N * N) + 1 := hb1
      _ ≤ 8 * (N * N) + N := by omega
  · calc (astarRun N wall s e).2.length ≤ 8 * (N * N) + 1 := hb2
      _ ≤ 8 * (N * N) + N := by omega

/-- Witness for Claim C7. -/
theorem C7_witness :
    (dijkstraRun 2 (fun _ => false) (0, 0) (1, 1)).2.length ≤ 8 * (2 * 2) + 2 ∧
    (astarRun 2 (fun _ => false) (0, 0) (1, 1)).2.length ≤ 8 * (2 * 2) + 2 :=
  ⟨(C7_events_bound 2 (fun _ => false) (0, 0) (1, 1) (by decide) (by decide)).2.2.2.2.1,
   (C7_events_bound 2 (fun _ => false) (0, 0) (1, 1) (by decide) (by decide)).2.2.2.2.2⟩

end PathViz
